import Mathlib

/-!
Verification development for the Victoria 3 localization translator
(`generate-victoria3-l10n.py`, `scripts/paradox_yaml_tools.py`, `add_bom.py`).

Texts are shallowly embedded as `List Char`.  Python's `str.splitlines`,
`str.strip`, `re` matching on the concrete patterns used by the scripts, and
the PyYAML emission used by `dump_keys_unquoted_values_quoted` (restricted to
the data shapes this program feeds it: a dict of dicts of strings) are
modelled as executable Lean functions.  Line terminators are modelled as
`"\n"`, `"\r"`, `"\r\n"` (the exotic terminators Python additionally splits
on — `\x0b`, `\x0c`, `\x1c`–`\x1e`, `\x85`, U+2028, U+2029 — are outside
the modelled domain, as are non-ASCII digits/whitespace for `\d`/`\s`).
-/

namespace V3

/-- Convert a string literal to the `List Char` representation used throughout. -/
def chars (s : String) : List Char := s.data

/-- Python whitespace as used by `str.strip()` / regex `\s` (ASCII fragment). -/
def isPyWs (c : Char) : Bool :=
  c == ' ' || c == '\t' || c == '\n' || c == '\r' || c == '\x0b' || c == '\x0c'

/-- Regex word character `[A-Za-z0-9_]` as used in the header/entry patterns. -/
def isWordChar (c : Char) : Bool := c.isAlpha || c.isDigit || c == '_'

/-- Python `str.lstrip()` (no argument): drop leading whitespace. -/
def pyLstrip : List Char → List Char
  | [] => []
  | c :: cs => if isPyWs c then pyLstrip cs else c :: cs

/-- Python `str.rstrip()` (no argument): drop trailing whitespace. -/
def pyRstrip : List Char → List Char
  | [] => []
  | c :: cs =>
    let r := pyRstrip cs
    if r = [] ∧ isPyWs c then [] else c :: r

/-- Python `str.strip()` (no argument). -/
def pyStrip (l : List Char) : List Char := pyRstrip (pyLstrip l)

/-- `line.lstrip(BOM)` from `parse_paradox_yaml` (the argument is the U+FEFF
byte-order-mark character): drop leading BOM chars. -/
def dropBOM (l : List Char) : List Char := l.dropWhile (fun c => c.toNat == 65279)

/-- Python `str.splitlines(keepends=True)` (terminators `\n`, `\r`, `\r\n`),
accumulator-passing so that it is structurally recursive.  `acc` holds the
current line's characters in reverse. -/
def slK : List Char → List Char → List (List Char)
  | [], acc => if acc.isEmpty then [] else [acc.reverse]
  | '\r' :: '\n' :: rest, acc => (acc.reverse ++ ['\r', '\n']) :: slK rest []
  | '\r' :: rest, acc => (acc.reverse ++ ['\r']) :: slK rest []
  | '\n' :: rest, acc => (acc.reverse ++ ['\n']) :: slK rest []
  | c :: rest, acc => slK rest (c :: acc)

/-- Python `text.splitlines(keepends=True)` on the modelled terminators. -/
def pySplitlinesKeep (s : List Char) : List (List Char) := slK s []

/-- Python `str.splitlines()` without keepends, accumulator-passing. -/
def slNK : List Char → List Char → List (List Char)
  | [], acc => if acc.isEmpty then [] else [acc.reverse]
  | '\r' :: '\n' :: rest, acc => acc.reverse :: slNK rest []
  | '\r' :: rest, acc => acc.reverse :: slNK rest []
  | '\n' :: rest, acc => acc.reverse :: slNK rest []
  | c :: rest, acc => slNK rest (c :: acc)

/-- Python `text.splitlines()` on the modelled terminators. -/
def pySplitlines (s : List Char) : List (List Char) := slNK s []

/-- Iterating a text file line by line and applying `rstrip('\n')` to each
line, as `parse_paradox_yaml` does (`for line in f: ... line.rstrip('\n')`):
split on `'\n'`, no trailing empty piece for a terminated final line.
Text-mode reading has already translated `\r\n`/`\r` to `\n`. -/
def flAux : List Char → List Char → List (List Char)
  | [], acc => if acc.isEmpty then [] else [acc.reverse]
  | '\n' :: rest, acc => acc.reverse :: flAux rest []
  | c :: rest, acc => flAux rest (c :: acc)

/-- The lines `parse_paradox_yaml`'s loop visits, already `rstrip('\n')`-ed. -/
def fileLines (s : List Char) : List (List Char) := flAux s []

/-- Python `"\n".join(...)` on a list of lines. -/
def joinNl : List (List Char) → List Char
  | [] => []
  | [l] => l
  | l :: ls => l ++ '\n' :: joinNl ls

/-- Remove a single trailing `'\n'` if present (the form in which the external
translation service is expected to return a segment). -/
def stripNl (l : List Char) : List Char :=
  if l.getLast? = some '\n' then l.dropLast else l

/-!
## Chunker — `chunk_text_by_lines` (generate-victoria3-l10n.py, lines 55–73)

The token counter `len(encoding.encode(...))` is an external capability and is
modelled as an arbitrary cost function `cost : List Char → Nat`.
-/

/-- The accumulation loop of `chunk_text_by_lines`: `cur` is `current_chunk`.
A line is added to the current chunk unless doing so would exceed the budget
while the current chunk is non-empty, in which case the current chunk is
emitted and the line starts a new chunk.  The final non-empty chunk is
emitted at the end. -/
def chunkLoop (cost : List Char → Nat) (maxTokens : Nat) :
    List (List Char) → List Char → List (List Char)
  | [], cur => if cur = [] then [] else [cur]
  | l :: ls, cur =>
    if maxTokens < cost cur + cost l ∧ cur ≠ [] then
      cur :: chunkLoop cost maxTokens ls l
    else
      chunkLoop cost maxTokens ls (cur ++ l)

/-- `chunk_text_by_lines(text, max_tokens, encoding)`: split `text` into
line-aligned chunks (`splitlines(keepends=True)`), greedily packed under
`max_tokens` according to `cost`. -/
def chunk_text_by_lines (text : List Char) (maxTokens : Nat)
    (cost : List Char → Nat) : List (List Char) :=
  chunkLoop cost maxTokens (pySplitlinesKeep text) []

/-!
## Dialect parser — `parse_paradox_yaml` (paradox_yaml_tools.py, lines 75–123)

A parsed registry is a `dict[str, dict[str, str]]`; Python dicts preserve
insertion order and update-in-place on existing keys, so they are embedded as
association lists with an update-or-append operation.
-/

abbrev Key := List Char

abbrev Value := List Char

abbrev Block := List (Key × Value)

abbrev Document := List (Key × Block)

/-- `d[k] = v` on an insertion-ordered Python dict: update the value in place
if `k` is present (keeping its position), otherwise append `(k, v)`. -/
def updAssoc (k : Key) (v : α) : List (Key × α) → List (Key × α)
  | [] => [(k, v)]
  | (k2, v2) :: rest =>
    if k2 = k then (k2, v) :: rest else (k2, v2) :: updAssoc k v rest

/-- `blocks[current_header][key] = val`: update the entries of the first block
named `h`. -/
def addEntry (h : Key) (k : Key) (v : Value) : Document → Document
  | [] => []
  | (h2, es) :: rest =>
    if h2 = h then (h2, updAssoc k v es) :: rest else (h2, es) :: addEntry h k v rest

/-- The header pattern `^\s*(l_[A-Za-z0-9_]+):\s*$` (re.match, full line):
returns the captured group `l_<word>` on success.  The match is deterministic:
the word run is maximal and the remainder after the colon must be whitespace
only. -/
def headerParse? (l : List Char) : Option Key :=
  match l.dropWhile isPyWs with
  | 'l' :: '_' :: r2 =>
    let run := r2.takeWhile isWordChar
    match r2.dropWhile isWordChar with
    | ':' :: rest =>
      if run ≠ [] ∧ rest.all isPyWs then some ('l' :: '_' :: run) else none
    | _ => none
  | _ => none

/-- `\d?` followed by the mandatory `\s+`: take one leading ASCII digit if
present (backtracking to the empty match cannot succeed because a digit is
not whitespace). -/
def digitSplit : List Char → List Char × List Char
  | [] => ([], [])
  | c :: cs => if c.isDigit then ([c], cs) else ([], c :: cs)

/-- The entry pattern `^\s+(l_[A-Za-z0-9_]+:\d?)\s+"(.*)"\s*$`: returns the
captured key (including the `:<digit>` or bare `:` suffix) and the value
between the opening quote and the last quote that is followed only by
whitespace (the greedy `(.*)`). -/
def entryParse? (l : List Char) : Option (Key × Value) :=
  if l.takeWhile isPyWs = [] then none else
  match l.dropWhile isPyWs with
  | 'l' :: '_' :: r2 =>
    let run := r2.takeWhile isWordChar
    if run = [] then none else
    match r2.dropWhile isWordChar with
    | ':' :: r4 =>
      let dp := digitSplit r4
      if dp.2.takeWhile isPyWs = [] then none else
      match dp.2.dropWhile isPyWs with
      | '"' :: r6 =>
        let r7 := pyRstrip r6
        if r7.getLast? = some '"' then
          some ('l' :: '_' :: run ++ ':' :: dp.1, r7.dropLast)
        else none
      | _ => none
    | _ => none
  | _ => none

/-- The line loop of `parse_paradox_yaml`: strip the BOM, skip blank lines,
open a new (empty) block on a header line, attach an entry line to the
current block when one is open, and silently skip everything else
(`# Could handle comments or skip lines` / `pass`). -/
def parseLines : List (List Char) → Option Key → Document → Document
  | [], _, acc => acc
  | l :: ls, cur, acc =>
    let l2 := dropBOM l
    if pyStrip l2 = [] then parseLines ls cur acc
    else
      match headerParse? l2 with
      | some h => parseLines ls (some h) (updAssoc h [] acc)
      | none =>
        match entryParse? l2, cur with
        | some kv, some h => parseLines ls cur (addEntry h kv.1 kv.2 acc)
        | _, _ => parseLines ls cur acc

/-- `parse_paradox_yaml` on the text of the file (the file iteration plus
`rstrip('\n')` is `fileLines`). -/
def parse_paradox_yaml (t : List Char) : Document :=
  parseLines (fileLines t) none []

/-!
## Dialect serializer — `dump_keys_unquoted_values_quoted` followed by the
colon-removing substitution (generate-victoria3-l10n.py, lines 226–230)

`dump_keys_unquoted_values_quoted` calls `yaml.dump` with a custom dumper
that leaves keys unstyled and forces double quotes on string values.  The
PyYAML block emitter is modelled on the data shapes this program produces
(a `Document`): a block with entries renders as `<header>:` followed by
two-space-indented `key: "value"` lines; an empty inner dict renders as
`<header>: {}`; an empty outer dict renders as `{}`.  A key that ends in a
colon is not a valid plain scalar, so the emitter falls back to
single-quoting it; keys of the shapes the parser can produce
(`l_<word>`, `l_<word>:<digit>`) are emitted plain.  Values are emitted
double-quoted with `"` and `\` backslash-escaped; the model covers values
whose characters PyYAML considers printable and that are short enough not to
trigger the emitter's line folding (`goodValue`/`goodDoc` below). -/
def squote : Char := Char.ofNat 39

/-- PyYAML double-quoted scalar escaping, restricted to the `"`/`\` escapes
(all other modelled value characters are emitted verbatim). -/
def escapeDQ (v : Value) : List Char :=
  (v.map (fun c => if c = '"' ∨ c = '\\' then ['\\', c] else [c])).flatten

/-- Key emission by the custom dumper: plain when plain-safe, single-quoted
when the key ends in `:` (the only non-plain-safe shape among parser-produced
keys). -/
def emitKey (k : Key) : List Char :=
  if k.getLast? = some ':' then squote :: k ++ [squote] else k

/-- The lines `yaml.dump` emits for one block. -/
def yamlBlockLines (h : Key) (es : Block) : List (List Char) :=
  if es = [] then [h ++ chars ": \x7b\x7d"]
  else (h ++ [':']) :: es.map (fun kv => chars "  " ++ emitKey kv.1 ++ ':' :: ' ' :: '"' :: escapeDQ kv.2 ++ ['"'])

/-- The lines `yaml.dump` emits for a document. -/
def yamlLines (doc : Document) : List (List Char) :=
  if doc = [] then [chars "\x7b\x7d"] else (doc.map (fun b => yamlBlockLines b.1 b.2)).flatten

/-- `dump_keys_unquoted_values_quoted`: every emitted line is terminated by
`'\n'`. -/
def dump_keys_unquoted_values_quoted (doc : Document) : List Char :=
  ((yamlLines doc).map (fun l => l ++ ['\n'])).flatten

/-- The substitution `re.sub(r"^(\s*l_[A-Za-z0-9_]+:\d):\s*", r"\1 ", ...,
flags=re.MULTILINE)` applied to one line: when the line starts (after
optional whitespace) with `l_<word>:<digit>:`, the second colon and the
whitespace after it are replaced by a single space.  On the lines
`yaml.dump` produces for a `Document` the MULTILINE whole-text substitution
coincides with this per-line application, because no emitted line ends with
`l_<word>:<digit>:` (a quoted value always follows) and none is blank, so
the `\s*` parts never cross a line boundary. -/
def colonFix (l : List Char) : List Char :=
  let ws := l.takeWhile isPyWs
  match l.dropWhile isPyWs with
  | 'l' :: '_' :: r2 =>
    let run := r2.takeWhile isWordChar
    if run = [] then l else
    match r2.dropWhile isWordChar with
    | ':' :: d :: ':' :: r4 =>
      if d.isDigit then ws ++ 'l' :: '_' :: run ++ ':' :: d :: ' ' :: r4.dropWhile isPyWs
      else l
    | _ => l
  | _ => l

/-- The serializer's output lines: `yaml.dump` followed by the
colon-removing substitution. -/
def serializeLines (doc : Document) : List (List Char) :=
  (yamlLines doc).map colonFix

/-- `update_languages_yml`'s serialization path (lines 226–230): dump, then
the MULTILINE substitution; the result is the text written to
`languages.yml`. -/
def serializeDoc (doc : Document) : List Char :=
  ((serializeLines doc).map (fun l => l ++ ['\n'])).flatten

/-!
## Header rewrite and reindentation — `translate_file`
(generate-victoria3-l10n.py, lines 109–111 and 124–140)
-/

/-- The fixed pattern of `re.sub(r"l_english:", target_header, text)`. -/
def lEnglishPat : List Char := chars "l_english:"

/-- Fuel-driven implementation of `re.sub` with the fixed pattern
`l_english:`: scan left to right, replacing every non-overlapping occurrence
with `rep` and skipping past it.  The fuel only bounds the recursion (one
unit per consumed character suffices) and never changes the result. -/
def subAll (rep : List Char) : Nat → List Char → List Char
  | _, [] => []
  | 0, s => s
  | n + 1, c :: cs =>
    if lEnglishPat.isPrefixOf (c :: cs) then
      rep ++ subAll rep n ((c :: cs).drop lEnglishPat.length)
    else c :: subAll rep n cs

/-- `re.sub(r"l_english:", rep, s)` — replace all occurrences of
`l_english:` by `rep`, left to right, non-overlapping. -/
def rewriteHeader (rep : List Char) (s : List Char) : List Char :=
  subAll rep s.length s

/-- `header_pattern.match(stripped)` with `header_pattern = re.compile(r"l_[^:]+:")`:
a prefix match succeeds iff the stripped line starts with `l_`, then at least
one non-colon character, with a colon somewhere after. -/
def headerMatch (s : List Char) : Bool :=
  match s with
  | 'l' :: '_' :: c :: cs => c != ':' && cs.contains ':'
  | _ => false

/-- A line the reindentation loop passes through unchanged: blank after
stripping, or a comment (`stripped.startswith("#")`). -/
def blankOrComment (l : List Char) : Prop :=
  pyStrip l = [] ∨ (pyStrip l).head? = some '#'

instance (l : List Char) : Decidable (blankOrComment l) := by
  unfold blankOrComment; infer_instance

/-- The reindentation loop of `translate_file` (lines 128–139): blank and
comment lines pass unchanged; the first remaining line whose stripped form
matches `l_[^:]+:` is emitted stripped (`header_found` flips); every other
line is emitted as two spaces plus its `lstrip()`. -/
def reindentLoop : Bool → List (List Char) → List (List Char)
  | _, [] => []
  | hf, l :: ls =>
    let s := pyStrip l
    if blankOrComment l then l :: reindentLoop hf ls
    else if hf = false ∧ headerMatch s = true then s :: reindentLoop true ls
    else (chars "  " ++ pyLstrip l) :: reindentLoop hf ls

/-- The reindentation pass of `translate_file` (lines 124–140):
`"\n".join(...)` over the loop on `final_text.splitlines()`. -/
def reindent (t : List Char) : List Char :=
  joinNl (reindentLoop false (pySplitlines t))

/-- The header replacement of `translate_file` (line 110) followed by the
reindentation pass: the per-file pipeline around the (externally performed)
chunk translation, with the translation treated as the identity. -/
def finalize (t : List Char) (L : List Char) : List Char :=
  reindent (rewriteHeader (chars "l_" ++ L ++ [':']) t)

/-- The first non-blank, non-comment line of a text. -/
def firstStructuralLine (t : List Char) : Option (List Char) :=
  (pySplitlines t).find? (fun l => decide (¬ blankOrComment l))

/-!
## Registry update — `update_languages_yml`
(generate-victoria3-l10n.py, lines 183–221, mutation core 196–221)

The native language name is resolved by `get_native_language_name` through
the external translation service and is modelled as the argument `native`.
File I/O, the warning paths and the BOM post-processing are outside the
model; `isinstance(..., dict)` checks are always true on a parsed
`Document`. -/
def update_languages_yml (doc : Document) (target : List Char) (native : Value) : Document :=
  let lkey := chars "l_" ++ target
  if (doc.lookup lkey).isSome then doc
  else
    let doc2 := doc.map (fun b =>
      (b.1, if (b.2.lookup lkey).isSome then b.2 else updAssoc (lkey ++ chars ":1") native b.2))
    if (doc2.lookup lkey).isSome then doc2
    else
      match doc2.lookup (chars "l_english") with
      | some es => doc2 ++ [(lkey, es)]
      | none => doc2

/-!
## Modelled-domain predicates

These delimit the data on which the PyYAML emission model above is exact:
header keys and entry keys of the shapes the dialect parser produces, values
made of characters the emitter writes verbatim inside double quotes
(printable, not `"`, `\`, nor one of the characters PyYAML always escapes),
and lines short enough (~80 columns) not to trigger the emitter's line
folding. -/
def goodHeaderKey (h : Key) : Bool :=
  match h with
  | 'l' :: '_' :: rest => !rest.isEmpty && rest.all isWordChar
  | _ => false

/-- An entry key `l_<word>:<digit>` — version digit present. -/
def goodEntryKey (k : Key) : Bool :=
  match k with
  | 'l' :: '_' :: rest =>
    !(rest.takeWhile isWordChar).isEmpty &&
      (match rest.dropWhile isWordChar with
       | [':', d] => d.isDigit
       | _ => false)
  | _ => false

/-- A value character PyYAML's double-quoted emitter writes verbatim under
`allow_unicode=True`: printable, not `"` or `\`, and not one of
`\x85`, U+2028, U+2029, U+FEFF. -/
def goodChar (c : Char) : Bool :=
  (32 ≤ c.toNat && c.toNat ≤ 126 && c != '"' && c != '\\') ||
  (160 ≤ c.toNat && c.toNat ≤ 55295 && c.toNat != 8232 && c.toNat != 8233) ||
  (57344 ≤ c.toNat && c.toNat ≤ 65533 && c.toNat != 65279)

def goodValue (v : Value) : Bool := v.all goodChar

/-- The modelled domain for the round-trip statement: non-empty blocks with
distinct, parser-shaped headers; within each block distinct entry keys with
a version digit, emitter-verbatim values, and entry lines short enough not
to fold. -/
def goodDoc (doc : Document) : Bool :=
  (doc.map Prod.fst).Nodup &&
  doc.all (fun b =>
    goodHeaderKey b.1 && b.1.length ≤ 100 && !b.2.isEmpty &&
    (b.2.map Prod.fst).Nodup &&
    b.2.all (fun kv => goodEntryKey kv.1 && goodValue kv.2 &&
      kv.1.length + kv.2.length ≤ 74))

/-!
## Lemmas about splitting and joining
-/

theorem slK_flatten : ∀ (s acc : List Char), (slK s acc).flatten = acc.reverse ++ s := by
  intro s acc
  induction s, acc using slK.induct <;> simp_all [slK, List.isEmpty_iff]

theorem pySplitlinesKeep_flatten (s : List Char) : (pySplitlinesKeep s).flatten = s := by
  simpa using slK_flatten s []

theorem chunkLoop_flatten (cost : List Char → Nat) (mt : Nat) :
    ∀ (ls : List (List Char)) (cur : List Char),
      (chunkLoop cost mt ls cur).flatten = cur ++ ls.flatten := by
  intro ls
  induction ls with
  | nil =>
    intro cur
    by_cases h : cur = [] <;> simp [chunkLoop, h]
  | cons l ls ih =>
    intro cur
    simp only [chunkLoop]
    split
    · rw [List.flatten_cons, ih]; simp
    · rw [ih]; simp

theorem chunkLoop_ne_nil (cost : List Char → Nat) (mt : Nat) :
    ∀ (ls : List (List Char)) (cur : List Char),
      c ∈ chunkLoop cost mt ls cur → c ≠ [] := by
  intro ls
  induction ls with
  | nil =>
    intro cur hc
    by_cases h : cur = [] <;> simp [chunkLoop, h] at hc
    exact hc ▸ h
  | cons l ls ih =>
    intro cur hc
    simp only [chunkLoop] at hc
    split at hc
    · rcases List.mem_cons.1 hc with h | h
      · exact h ▸ (by tauto)
      · exact ih l h
    · exact ih (cur ++ l) hc

theorem chunkLoop_cons_ne_nil (cost : List Char → Nat) (mt : Nat) :
    ∀ (ls : List (List Char)) (cur : List Char),
      cur ≠ [] → chunkLoop cost mt ls cur ≠ [] := by
  intro ls
  induction ls with
  | nil => intro cur h; simp [chunkLoop, h]
  | cons l ls ih =>
    intro cur h
    simp only [chunkLoop]
    split
    · simp
    · exact ih (cur ++ l) (by simp [h])

/-- Every chunk the loop emits is within budget or is one of the lines it was
fed (hence a single line), provided the cost function is subadditive. -/
theorem chunkLoop_budget (cost : List Char → Nat) (mt : Nat)
    (S : List (List Char))
    (hsub : ∀ a b, cost (a ++ b) ≤ cost a + cost b) :
    ∀ (ls : List (List Char)) (cur : List Char),
      (∀ l ∈ ls, l ∈ S) → (cur = [] ∨ cost cur ≤ mt ∨ cur ∈ S) →
      ∀ c ∈ chunkLoop cost mt ls cur, cost c ≤ mt ∨ c ∈ S := by
  intro ls
  induction ls with
  | nil =>
    intro cur _ hcur c hc
    by_cases h : cur = [] <;> simp [chunkLoop, h] at hc
    subst hc
    rcases hcur with h2 | h2 | h2
    · exact absurd h2 h
    · exact Or.inl h2
    · exact Or.inr h2
  | cons l ls ih =>
    intro cur hls hcur c hc
    simp only [chunkLoop] at hc
    split at hc
    · rcases List.mem_cons.1 hc with h | h
      · subst h
        rcases hcur with h2 | h2 | h2
        · exact absurd h2 (by tauto)
        · exact Or.inl h2
        · exact Or.inr h2
      · exact ih l (fun x hx => hls x (List.mem_cons_of_mem _ hx))
          (Or.inr (Or.inr (hls l (List.mem_cons_self _ _)))) c h
    · rename_i hguard
      refine ih (cur ++ l) (fun x hx => hls x (List.mem_cons_of_mem _ hx)) ?_ c hc
      by_cases hc0 : cur = []
      · subst hc0
        exact Or.inr (Or.inr (by simpa using hls l (List.mem_cons_self _ _)))
      · have hle : cost cur + cost l ≤ mt := by
          rcases not_and_or.1 hguard with h | h
          · omega
          · exact absurd hc0 (by simpa using h)
        exact Or.inr (Or.inl ((hsub cur l).trans hle))

/-!
Lemmas about the line structure produced by `splitlines(keepends=True)` when
the text contains no carriage returns: every line is non-empty, and every
line but the last ends in `'\n'`.
-/

/-- Every line except possibly the last ends in a line feed. -/
def linesChain : List (List Char) → Prop
  | [] => True
  | [_] => True
  | l :: ls => l.getLast? = some '\n' ∧ linesChain ls

theorem linesChain_cons {l : List Char} {ls : List (List Char)}
    (h1 : l.getLast? = some '\n') (h2 : linesChain ls) : linesChain (l :: ls) := by
  cases ls with
  | nil => trivial
  | cons x xs => exact ⟨h1, h2⟩

theorem linesChain_tail {l : List Char} {ls : List (List Char)}
    (h : linesChain (l :: ls)) : linesChain ls := by
  cases ls with
  | nil => trivial
  | cons x xs => exact h.2

theorem linesChain_head {l : List Char} {ls : List (List Char)}
    (h : linesChain (l :: ls)) (hne : ls ≠ []) : l.getLast? = some '\n' := by
  cases ls with
  | nil => exact absurd rfl hne
  | cons x xs => exact h.1

theorem slK_mem_ne_nil {l : List Char} :
    ∀ (s acc : List Char), l ∈ slK s acc → l ≠ [] := by
  intro s acc
  induction s, acc using slK.induct with
  | case1 acc h => simp [slK, h]
  | case2 acc h =>
    intro hl
    simp only [slK, if_neg h, List.mem_singleton] at hl
    subst hl
    simpa [List.isEmpty_iff] using h
  | case3 rest acc ih =>
    intro hl
    rcases List.mem_cons.1 hl with h | h
    · subst h; simp
    · exact ih h
  | case4 rest acc hr ih =>
    intro hl
    rw [slK.eq_3 acc rest hr] at hl
    rcases List.mem_cons.1 hl with h | h
    · subst h; simp
    · exact ih h
  | case5 rest acc ih =>
    intro hl
    rcases List.mem_cons.1 hl with h | h
    · subst h; simp
    · exact ih h
  | case6 c rest acc h1 h2 h3 ih =>
    intro hl
    rw [slK.eq_5 acc c rest h1 h2 h3] at hl
    exact ih hl

theorem slK_chain : ∀ (s acc : List Char), '\r' ∉ s → linesChain (slK s acc) := by
  intro s acc
  induction s, acc using slK.induct with
  | case1 acc h => intro _; simp only [slK, if_pos h]; trivial
  | case2 acc h => intro _; simp only [slK, if_neg h]; trivial
  | case3 rest acc ih => intro h; exact absurd (by simp) h
  | case4 rest acc hr ih => intro h; exact absurd (by simp) h
  | case5 rest acc ih =>
    intro h
    simp only [slK]
    exact linesChain_cons (by simp) (ih (fun hin => h (List.mem_cons_of_mem _ hin)))
  | case6 c rest acc h1 h2 h3 ih =>
    intro h
    simp only [slK]
    exact ih (fun hin => h (List.mem_cons_of_mem _ hin))

theorem joinNl_cons {x : List Char} {ys : List (List Char)} (h : ys ≠ []) :
    joinNl (x :: ys) = x ++ '\n' :: joinNl ys := by
  cases ys with
  | nil => exact absurd rfl h
  | cons y ys => rfl

theorem stripNl_concat_nl (a : List Char) : stripNl (a ++ ['\n']) = a := by
  simp [stripNl]

theorem stripNl_append (a : List Char) {x : List Char} (h : x ≠ []) :
    stripNl (a ++ x) = a ++ stripNl x := by
  unfold stripNl
  rw [List.getLast?_append_of_ne_nil _ h]
  split
  · rw [List.dropLast_append_of_ne_nil _ h]
  · rfl

/-- Core of the reassembly statement: joining the emitted chunks with a
single `'\n'` after removing one trailing line feed from each equals the
pending text with one trailing line feed removed. -/
theorem chunkLoop_strip_join (cost : List Char → Nat) (mt : Nat) :
    ∀ (ls : List (List Char)) (cur : List Char),
      linesChain ls → (∀ l ∈ ls, l ≠ []) →
      (cur = [] ∨ ls = [] ∨ cur.getLast? = some '\n') →
      joinNl ((chunkLoop cost mt ls cur).map stripNl) = stripNl (cur ++ ls.flatten) := by
  intro ls
  induction ls with
  | nil =>
    intro cur _ _ _
    by_cases h : cur = [] <;> simp [chunkLoop, h, joinNl, stripNl]
  | cons l ls ih =>
    intro cur hchain hne hcur
    have hlne : l ≠ [] := hne l (List.mem_cons_self _ _)
    have hcur3 : cur = [] ∨ cur.getLast? = some '\n' := by
      rcases hcur with h | h | h
      · exact Or.inl h
      · exact absurd h (by simp)
      · exact Or.inr h
    simp only [chunkLoop]
    split
    · rename_i hguard
      have hcurnl : cur.getLast? = some '\n' := by
        rcases hcur3 with h | h
        · exact absurd h hguard.2
        · exact h
      have hrec := chunkLoop_cons_ne_nil cost mt ls l hlne
      rw [List.map_cons, joinNl_cons (by simpa using hrec)]
      rw [ih l (linesChain_tail hchain) (fun x hx => hne x (List.mem_cons_of_mem _ hx))
        (Or.inr (by
          by_cases hls : ls = []
          · exact Or.inl hls
          · exact Or.inr (linesChain_head hchain hls)))]
      obtain ⟨cur0, hcur0⟩ : ∃ cur0, cur = cur0 ++ ['\n'] := by
        refine ⟨cur.dropLast, ?_⟩
        have := List.dropLast_append_getLast? '\n' (l := cur)
        simpa using (this hcurnl).symm
      subst hcur0
      rw [stripNl_concat_nl]
      rw [List.flatten_cons, List.append_assoc cur0 ['\n'],
        stripNl_append cur0 (x := ['\n'] ++ (l ++ ls.flatten)) (by simp),
        stripNl_append ['\n'] (x := l ++ ls.flatten) (by simp [hlne])]
      simp
    · rw [ih (cur ++ l) (linesChain_tail hchain)
        (fun x hx => hne x (List.mem_cons_of_mem _ hx)) ?_]
      · simp
      · by_cases hls : ls = []
        · exact Or.inr (Or.inl hls)
        · refine Or.inr (Or.inr ?_)
          rw [List.getLast?_append_of_ne_nil _ hlne]
          exact linesChain_head hchain hls

/-!
## Claim C10 — chunker losslessness
-/

/-- Claim C10: for every text, budget and cost function, the plain
concatenation of the chunks returned by `chunk_text_by_lines` equals the
original text, every returned chunk is non-empty, and splitting the empty
text returns the empty sequence. -/
theorem c10_chunker_lossless (text : List Char) (budget : Nat) (cost : List Char → Nat) :
    (chunk_text_by_lines text budget cost).flatten = text ∧
    (∀ c ∈ chunk_text_by_lines text budget cost, c ≠ []) ∧
    chunk_text_by_lines [] budget cost = [] := by
  refine ⟨?_, ?_, rfl⟩
  · unfold chunk_text_by_lines
    rw [chunkLoop_flatten]
    simpa using pySplitlinesKeep_flatten text
  · intro c hc
    exact chunkLoop_ne_nil cost budget _ [] hc

/-- Witness for C10 at a concrete text, budget, cost and chunk. -/
theorem c10_chunker_lossless_witness :
    (chunk_text_by_lines (chars "a\nb") 2 List.length).flatten = chars "a\nb" ∧
    chars "a\n" ≠ ([] : List Char) :=
  ⟨(c10_chunker_lossless (chars "a\nb") 2 List.length).1,
   (c10_chunker_lossless (chars "a\nb") 2 List.length).2.1 (chars "a\n") (by decide)⟩

/-!
## Claim C3 — chunk budget
-/

/-- Counterexample to C3 as stated: with cost = length and budget 1, the text
`"aa\nbb\n"` produces two chunks and already the first one (not the last)
is a line-driven chunk whose cost exceeds the budget. -/
theorem c3_chunk_budget_counterexample :
    chunk_text_by_lines (chars "aa\nbb\n") 1 List.length = [chars "aa\n", chars "bb\n"] ∧
    1 < (chars "aa\n").length := by decide

/-- Claim C3 (amended): for a subadditive cost function every emitted chunk
either has cost within the budget or is literally one of the input lines
(the oversized single-line chunks, which may occur anywhere in the output
sequence, not only last). -/
theorem c3_chunk_budget_subadditive (text : List Char) (budget : Nat)
    (cost : List Char → Nat)
    (hsub : ∀ a b, cost (a ++ b) ≤ cost a + cost b) :
    ∀ c ∈ chunk_text_by_lines text budget cost,
      cost c ≤ budget ∨ c ∈ pySplitlinesKeep text := by
  intro c hc
  exact chunkLoop_budget cost budget (pySplitlinesKeep text) hsub _ []
    (fun l hl => hl) (Or.inl rfl) c hc

/-- Witness for the amended C3 at cost = length, budget 3. -/
theorem c3_chunk_budget_subadditive_witness :
    List.length (chars "a\n") ≤ 3 ∨ chars "a\n" ∈ pySplitlinesKeep (chars "a\nbb\n") :=
  c3_chunk_budget_subadditive (chars "a\nbb\n") 3 List.length
    (fun a b => le_of_eq (List.length_append a b)) (chars "a\n") (by decide)

/-!
## Claim C2 — reassembly
-/

/-- Counterexample to C2 as stated: on `"a\nb"` with budget 2 and cost =
length the splitter yields two chunks, and joining them untransformed with a
single line break (`"\n".join`, as `translate_file` does) yields `"a\n\nb"`,
not the original text. -/
theorem c2_join_counterexample :
    joinNl (chunk_text_by_lines (chars "a\nb") 2 List.length) = chars "a\n\nb" ∧
    chars "a\n\nb" ≠ chars "a\nb" := by decide

/-- Claim C2 (amended): for texts with line-feed terminators, if each chunk
is first stripped of one trailing line feed (the form in which the
translation service is expected to return a segment), `"\n".join`
reconstructs the original text with its own final line feed stripped. -/
theorem c2_strip_join_reconstructs (text : List Char) (budget : Nat)
    (cost : List Char → Nat) (h : '\r' ∉ text) :
    joinNl ((chunk_text_by_lines text budget cost).map stripNl) = stripNl text := by
  unfold chunk_text_by_lines
  rw [chunkLoop_strip_join cost budget (pySplitlinesKeep text) []
    (slK_chain text [] h) (fun l hl => slK_mem_ne_nil text [] hl) (Or.inl rfl)]
  simp [pySplitlinesKeep_flatten]

/-- Witness for the amended C2. -/
theorem c2_strip_join_reconstructs_witness :
    joinNl ((chunk_text_by_lines (chars "a\nb") 2 List.length).map stripNl) =
      stripNl (chars "a\nb") :=
  c2_strip_join_reconstructs (chars "a\nb") 2 List.length (by decide)

/-!
## Parser lemmas and Claims C4, C8
-/

theorem pyLstrip_eq_dropWhile : ∀ l : List Char, pyLstrip l = l.dropWhile isPyWs := by
  intro l
  induction l with
  | nil => rfl
  | cons c cs ih =>
    simp only [pyLstrip, List.dropWhile_cons]
    split <;> simp_all

theorem pyRstrip_cons_ne_nil {c : Char} (h : isPyWs c = false) (cs : List Char) :
    pyRstrip (c :: cs) = c :: pyRstrip cs := by
  simp [pyRstrip, h]

theorem dropWhile_head_not {α : Type} {p : α → Bool} :
    ∀ {l : List α} {c : α} {cs : List α}, l.dropWhile p = c :: cs → p c = false := by
  intro l
  induction l with
  | nil => intro c cs h; simp at h
  | cons a as ih =>
    intro c cs h
    rw [List.dropWhile_cons] at h
    split at h
    · exact ih h
    · rename_i hp; cases h; simpa using hp

theorem pyStrip_ne_nil_of_dropWhile {l : List Char}
    (h : l.dropWhile isPyWs ≠ []) : pyStrip l ≠ [] := by
  unfold pyStrip
  rw [pyLstrip_eq_dropWhile]
  rcases hd : l.dropWhile isPyWs with _ | ⟨c, cs⟩
  · exact absurd hd h
  · rw [pyRstrip_cons_ne_nil (dropWhile_head_not hd)]
    simp

theorem entryParse?_dropWhile {x : List Char} {kv : Key × Value}
    (h : entryParse? x = some kv) : x.dropWhile isPyWs ≠ [] := by
  intro hnil
  unfold entryParse? at h
  rw [hnil] at h
  split at h <;> simp_all

/-- Counterexample to C4 as stated: `parse_paradox_yaml` contains no raise
statement at all; an Entry line appearing before any Header line is silently
skipped (`if match_entry and current_header is not None: ... else: pass`),
and the parse returns a normal (here empty) Document instead of failing with
a StructureError. -/
theorem c4_no_structure_error_counterexample :
    parse_paradox_yaml (chars " l_x:1 \"v\"") = [] := by decide

/-- Claim C4 (amended): the parser never fails; an Entry line that appears
while no Header has been seen is skipped exactly like an Unrecognized line,
and parsing continues on the remaining lines. -/
theorem c4_entry_before_header_skipped (l : List Char) (ls : List (List Char))
    (acc : Document) (kv : Key × Value)
    (he : entryParse? (dropBOM l) = some kv)
    (hh : headerParse? (dropBOM l) = none) :
    parseLines (l :: ls) none acc = parseLines ls none acc := by
  have hs : pyStrip (dropBOM l) ≠ [] :=
    pyStrip_ne_nil_of_dropWhile (entryParse?_dropWhile he)
  simp only [parseLines, if_neg hs, hh, he]

/-- Witness for the amended C4. -/
theorem c4_entry_before_header_skipped_witness :
    parseLines [chars " l_x:1 \"v\""] none [] = parseLines [] none [] :=
  c4_entry_before_header_skipped (chars " l_x:1 \"v\"") [] []
    (chars "l_x:1", chars "v") (by decide) (by decide)

/-- Does `p` occur as a contiguous subsequence of `s`? -/
def containsSeq (p : List Char) : List Char → Bool
  | [] => p.isEmpty
  | c :: cs => p.isPrefixOf (c :: cs) || containsSeq p cs

/-- Counterexample to C8 as stated: the Unrecognized line `JUNK` of the
input does not appear in the parse-then-serialize output — it is silently
dropped, not preserved verbatim. -/
theorem c8_unrecognized_dropped_counterexample :
    serializeDoc (parse_paradox_yaml (chars "l_a:\nJUNK\n l_a:1 \"v\"\n")) =
      chars "l_a:\n  l_a:1 \"v\"\n" ∧
    containsSeq (chars "JUNK")
      (serializeDoc (parse_paradox_yaml (chars "l_a:\nJUNK\n l_a:1 \"v\"\n"))) = false := by
  decide

/-- Claim C8 (amended): a non-blank line that is neither a Header nor an
Entry (an Unrecognized line) is skipped by the parser without any effect on
the resulting Document, hence it is absent from (not preserved in) the
parse-then-serialize output. -/
theorem c8_unrecognized_skipped (l : List Char) (ls : List (List Char))
    (cur : Option Key) (acc : Document)
    (hs : pyStrip (dropBOM l) ≠ [])
    (hh : headerParse? (dropBOM l) = none)
    (he : entryParse? (dropBOM l) = none) :
    parseLines (l :: ls) cur acc = parseLines ls cur acc := by
  simp only [parseLines, if_neg hs, hh, he]

/-- Witness for the amended C8. -/
theorem c8_unrecognized_skipped_witness :
    parseLines [chars "JUNK"] (some (chars "l_a")) [] =
      parseLines [] (some (chars "l_a")) [] :=
  c8_unrecognized_skipped (chars "JUNK") [] (some (chars "l_a")) []
    (by decide) (by decide) (by decide)

/-!
## Stripping lemmas and idempotence of the reindentation loop (towards C5)
-/

theorem pyLstrip_idem (l : List Char) : pyLstrip (pyLstrip l) = pyLstrip l := by
  induction l with
  | nil => rfl
  | cons c cs ih =>
    by_cases h : isPyWs c
    · simpa [pyLstrip, h]
    · simp [pyLstrip, h]

theorem pyLstrip_two_spaces (x : List Char) :
    pyLstrip (chars "  " ++ x) = pyLstrip x := by
  simp [chars, pyLstrip, isPyWs]

theorem pyRstrip_idem (l : List Char) : pyRstrip (pyRstrip l) = pyRstrip l := by
  induction l with
  | nil => rfl
  | cons c cs ih =>
    simp only [pyRstrip]
    split
    · rfl
    · rename_i h
      simp only [pyRstrip, ih]
      split
      · rename_i h2; exact absurd h2 h
      · rfl

theorem pyLstrip_pyRstrip (l : List Char)
    (h : ∀ c cs, l = c :: cs → isPyWs c = false) :
    pyLstrip (pyRstrip l) = pyRstrip l := by
  cases l with
  | nil => rfl
  | cons c cs =>
    rw [pyRstrip_cons_ne_nil (h c cs rfl), pyLstrip]
    simp [h c cs rfl]

theorem pyLstrip_head_not_ws {l : List Char} {c : Char} {cs : List Char}
    (h : pyLstrip l = c :: cs) : isPyWs c = false := by
  rw [pyLstrip_eq_dropWhile] at h
  exact dropWhile_head_not h

theorem pyStrip_idem (l : List Char) : pyStrip (pyStrip l) = pyStrip l := by
  unfold pyStrip
  rw [pyLstrip_pyRstrip (pyLstrip l) (fun c cs hc => pyLstrip_head_not_ws hc),
    pyRstrip_idem]

theorem pyStrip_pyLstrip (l : List Char) : pyStrip (pyLstrip l) = pyStrip l := by
  unfold pyStrip
  rw [pyLstrip_idem]

theorem pyStrip_two_spaces (x : List Char) :
    pyStrip (chars "  " ++ x) = pyStrip x := by
  unfold pyStrip
  rw [pyLstrip_two_spaces]

theorem headerMatch_shape {s : List Char} (h : headerMatch s = true) :
    ∃ c cs, s = 'l' :: '_' :: c :: cs := by
  unfold headerMatch at h
  split at h
  · rename_i c cs; exact ⟨c, cs, rfl⟩
  · exact absurd h (by simp)

theorem blankOrComment_strip (l : List Char) :
    blankOrComment (pyStrip l) ↔ blankOrComment l := by
  unfold blankOrComment
  rw [pyStrip_idem]

theorem blankOrComment_two_spaces_lstrip (l : List Char) :
    blankOrComment (chars "  " ++ pyLstrip l) ↔ blankOrComment l := by
  unfold blankOrComment
  rw [pyStrip_two_spaces, pyStrip_pyLstrip]

theorem not_blankOrComment_header {s : List Char}
    (hm : headerMatch s = true) (hs : pyStrip s = s) : ¬ blankOrComment s := by
  obtain ⟨c, cs, rfl⟩ := headerMatch_shape hm
  unfold blankOrComment
  rw [hs]
  simp

theorem reindentLoop_idem : ∀ (ls : List (List Char)) (hf : Bool),
    reindentLoop hf (reindentLoop hf ls) = reindentLoop hf ls := by
  intro ls
  induction ls with
  | nil => intro hf; rfl
  | cons l ls ih =>
    intro hf
    by_cases hbc : blankOrComment l
    · have e1 : reindentLoop hf (l :: ls) = l :: reindentLoop hf ls := by
        simp [reindentLoop, hbc]
      rw [e1, show reindentLoop hf (l :: reindentLoop hf ls)
          = l :: reindentLoop hf (reindentLoop hf ls) from by simp [reindentLoop, hbc],
        ih hf]
    · by_cases hh : hf = false ∧ headerMatch (pyStrip l) = true
      · have e1 : reindentLoop hf (l :: ls) = pyStrip l :: reindentLoop true ls := by
          simp [reindentLoop, hbc, hh]
        have hsi : pyStrip (pyStrip l) = pyStrip l := pyStrip_idem l
        have hnbc : ¬ blankOrComment (pyStrip l) := not_blankOrComment_header hh.2 hsi
        have e2 : reindentLoop hf (pyStrip l :: reindentLoop true ls)
            = pyStrip l :: reindentLoop true (reindentLoop true ls) := by
          simp [reindentLoop, hnbc, hsi, hh.1, hh.2]
        rw [e1, e2, ih true]
      · have e1 : reindentLoop hf (l :: ls)
            = (chars "  " ++ pyLstrip l) :: reindentLoop hf ls := by
          simp only [reindentLoop]
          rw [if_neg hbc, if_neg hh]
        have hnbc : ¬ blankOrComment (chars "  " ++ pyLstrip l) := by
          rw [blankOrComment_two_spaces_lstrip]; exact hbc
        have hs2 : pyStrip (chars "  " ++ pyLstrip l) = pyStrip l := by
          rw [pyStrip_two_spaces, pyStrip_pyLstrip]
        have e2 : reindentLoop hf ((chars "  " ++ pyLstrip l) :: reindentLoop hf ls)
            = (chars "  " ++ pyLstrip (chars "  " ++ pyLstrip l))
              :: reindentLoop hf (reindentLoop hf ls) := by
          simp only [reindentLoop]
          rw [if_neg hnbc, if_neg (by rw [hs2]; exact hh)]
        rw [e1, e2, pyLstrip_two_spaces, pyLstrip_idem, ih hf]

/-!
## Splitting a joined line list recovers it (towards C5/C7)
-/

/-- A line free of the modelled terminator characters. -/
def noBreak (l : List Char) : Prop := ∀ c ∈ l, c ≠ '\n' ∧ c ≠ '\r'

instance (l : List Char) : Decidable (noBreak l) := by
  unfold noBreak; infer_instance

theorem slNK_mem_noBreak :
    ∀ (s acc : List Char), (∀ c ∈ acc, c ≠ '\n' ∧ c ≠ '\r') →
      ∀ l ∈ slNK s acc, noBreak l := by
  intro s acc
  induction s, acc using slNK.induct with
  | case1 acc h => intro hacc l hl; simp [slNK, h] at hl
  | case2 acc h =>
    intro hacc l hl
    simp only [slNK, if_neg h, List.mem_singleton] at hl
    subst hl
    intro c hc
    exact hacc c (by simpa using hc)
  | case3 rest acc ih =>
    intro hacc l hl
    simp only [slNK] at hl
    rcases List.mem_cons.1 hl with h | h
    · subst h; intro c hc; exact hacc c (by simpa using hc)
    · exact ih (by intro c hc; simp at hc) l h
  | case4 rest acc hr ih =>
    intro hacc l hl
    rw [slNK.eq_3 acc rest hr] at hl
    rcases List.mem_cons.1 hl with h | h
    · subst h; intro c hc; exact hacc c (by simpa using hc)
    · exact ih (by intro c hc; simp at hc) l h
  | case5 rest acc ih =>
    intro hacc l hl
    simp only [slNK] at hl
    rcases List.mem_cons.1 hl with h | h
    · subst h; intro c hc; exact hacc c (by simpa using hc)
    · exact ih (by intro c hc; simp at hc) l h
  | case6 c rest acc h1 h2 h3 ih =>
    intro hacc l hl
    rw [slNK.eq_5 acc c rest h1 h2 h3] at hl
    refine ih ?_ l hl
    intro d hd
    rcases List.mem_cons.1 hd with h | h
    · subst h
      exact ⟨fun hc => h3 hc, fun hc => h2 hc⟩
    · exact hacc d h

theorem slNK_noBreak_all :
    ∀ (x acc : List Char), noBreak x → acc.reverse ++ x ≠ [] →
      slNK x acc = [acc.reverse ++ x] := by
  intro x
  induction x with
  | nil =>
    intro acc _ hne
    have : ¬ acc.isEmpty = true := by
      simp only [List.isEmpty_iff]
      intro h; subst h; simp at hne
    simp [slNK, this]
  | cons c cs ih =>
    intro acc hnb hne
    have hc := hnb c (List.mem_cons_self _ _)
    rw [slNK.eq_5 acc c cs (fun r h1 h2 => hc.2 h1) (fun h => hc.2 h) (fun h => hc.1 h)]
    rw [ih (c :: acc) (fun d hd => hnb d (List.mem_cons_of_mem _ hd)) (by simp)]
    simp

theorem slNK_append_nl :
    ∀ (x : List Char), noBreak x → ∀ (acc z : List Char),
      slNK (x ++ '\n' :: z) acc = (acc.reverse ++ x) :: slNK z [] := by
  intro x
  induction x with
  | nil => intro _ acc z; simp [slNK]
  | cons c cs ih =>
    intro hnb acc z
    have hc := hnb c (List.mem_cons_self _ _)
    have : ((c :: cs) ++ '\n' :: z) = c :: (cs ++ '\n' :: z) := by simp
    rw [this, slNK.eq_5 acc c (cs ++ '\n' :: z)
      (fun r h1 h2 => hc.2 h1) (fun h => hc.2 h) (fun h => hc.1 h)]
    rw [ih (fun d hd => hnb d (List.mem_cons_of_mem _ hd)) (c :: acc) z]
    simp

theorem pySplitlines_joinNl :
    ∀ (out : List (List Char)), (∀ l ∈ out, noBreak l) →
      out.getLast? ≠ some [] → pySplitlines (joinNl out) = out := by
  intro out
  induction out with
  | nil => intro _ _; rfl
  | cons x ys ih =>
    intro hnb hlast
    cases ys with
    | nil =>
      have hx : x ≠ [] := by
        intro h; subst h; simp at hlast
      show slNK x [] = [x]
      simpa using slNK_noBreak_all x [] (hnb x (List.mem_cons_self _ _)) (by simpa using hx)
    | cons y rest =>
      show slNK (x ++ '\n' :: joinNl (y :: rest)) [] = x :: y :: rest
      rw [slNK_append_nl x (hnb x (List.mem_cons_self _ _)) [] (joinNl (y :: rest))]
      simp only [List.reverse_nil, List.nil_append]
      rw [show slNK (joinNl (y :: rest)) [] = pySplitlines (joinNl (y :: rest)) from rfl,
        ih (fun l hl => hnb l (List.mem_cons_of_mem _ hl)) (by simpa using hlast)]

theorem reindentLoop_ne_nil {ls : List (List Char)} (h : ls ≠ []) (hf : Bool) :
    reindentLoop hf ls ≠ [] := by
  cases ls with
  | nil => exact absurd rfl h
  | cons l ls =>
    simp only [reindentLoop]
    split
    · simp
    · split <;> simp

theorem pyRstrip_prefix : ∀ l : List Char, ∃ w, l = pyRstrip l ++ w := by
  intro l
  induction l with
  | nil => exact ⟨[], rfl⟩
  | cons c cs ih =>
    obtain ⟨w, hw⟩ := ih
    simp only [pyRstrip]
    split
    · exact ⟨c :: cs, rfl⟩
    · exact ⟨w, by rw [List.cons_append, ← hw]⟩

theorem reindentLoop_mem_noBreak :
    ∀ (ls : List (List Char)) (hf : Bool), (∀ l ∈ ls, noBreak l) →
      ∀ l2 ∈ reindentLoop hf ls, noBreak l2 := by
  intro ls
  induction ls with
  | nil => intro hf _ l2 h; simp [reindentLoop] at h
  | cons l ls ih =>
    intro hf hnb l2 hl2
    have hl : noBreak l := hnb l (List.mem_cons_self _ _)
    have hrest : ∀ x ∈ ls, noBreak x := fun x hx => hnb x (List.mem_cons_of_mem _ hx)
    have hstrip : noBreak (pyStrip l) := by
      intro c hc
      refine hl c ?_
      have h1 : c ∈ pyLstrip l := by
        have hp := pyRstrip_prefix (pyLstrip l)
        obtain ⟨w, hw⟩ := hp
        rw [hw]
        exact List.mem_append_left _ hc
      rw [pyLstrip_eq_dropWhile] at h1
      exact List.dropWhile_sublist _ |>.subset h1
    have hindent : noBreak (chars "  " ++ pyLstrip l) := by
      intro c hc
      rcases List.mem_append.1 hc with h | h
      · have hc' : c = ' ' := by simpa [chars] using h
        subst hc'
        exact ⟨by decide, by decide⟩
      · refine hl c ?_
        rw [pyLstrip_eq_dropWhile] at h
        exact List.dropWhile_sublist _ |>.subset h
    simp only [reindentLoop] at hl2
    split at hl2
    · rcases List.mem_cons.1 hl2 with h | h
      · subst h; exact hl
      · exact ih hf hrest l2 h
    · split at hl2
      · rcases List.mem_cons.1 hl2 with h | h
        · subst h; exact hstrip
        · exact ih true hrest l2 h
      · rcases List.mem_cons.1 hl2 with h | h
        · subst h; exact hindent
        · exact ih hf hrest l2 h

theorem getLast?_cons_ne_nil {α : Type} {x : α} {r : List α} (h : r ≠ []) :
    (x :: r).getLast? = r.getLast? := by
  cases r with
  | nil => exact absurd rfl h
  | cons y ys => exact List.getLast?_cons_cons

theorem reindentLoop_getLast_ne :
    ∀ (ls : List (List Char)) (hf : Bool), ls.getLast? ≠ some [] →
      (reindentLoop hf ls).getLast? ≠ some [] := by
  intro ls
  induction ls with
  | nil => intro hf _; simp [reindentLoop]
  | cons l ls ih =>
    intro hf hlast
    by_cases hls : ls = []
    · subst hls
      have hlne : l ≠ [] := by simpa using hlast
      simp only [reindentLoop]
      split
      · simpa [reindentLoop] using hlne
      · split
        · rename_i hh
          obtain ⟨c, cs, hs⟩ := headerMatch_shape hh.2
          simp [reindentLoop, hs]
        · simp [reindentLoop, chars]
    · have hlast2 : ls.getLast? ≠ some [] := by
        rwa [getLast?_cons_ne_nil hls] at hlast
      have hne : ∀ hf2, (reindentLoop hf2 ls).getLast? ≠ some [] := fun hf2 => ih hf2 hlast2
      simp only [reindentLoop]
      split
      · rw [getLast?_cons_ne_nil (reindentLoop_ne_nil hls hf)]
        exact hne hf
      · split
        · rw [getLast?_cons_ne_nil (reindentLoop_ne_nil hls true)]
          exact hne true
        · rw [getLast?_cons_ne_nil (reindentLoop_ne_nil hls hf)]
          exact hne hf

/-- The reindentation pass is idempotent on texts whose final split line is
not empty (the failing case is a text ending in a doubled line terminator,
whose trailing empty line the second pass drops). -/
theorem reindent_idem (t : List Char)
    (h2 : (pySplitlines t).getLast? ≠ some []) :
    reindent (reindent t) = reindent t := by
  unfold reindent
  rw [pySplitlines_joinNl (reindentLoop false (pySplitlines t))
    (reindentLoop_mem_noBreak _ false (slNK_mem_noBreak t [] (by simp)))
    (reindentLoop_getLast_ne _ false h2)]
  rw [reindentLoop_idem]

/-!
## The `re.sub` model: fuel invariance and absence of occurrences
-/

theorem subAll_fuel (rep : List Char) :
    ∀ (n : Nat) (s : List Char), s.length ≤ n →
      subAll rep n s = subAll rep s.length s := by
  intro n
  induction n using Nat.strong_induction_on with
  | _ n ih =>
    intro s hs
    cases s with
    | nil => cases n <;> rfl
    | cons c cs =>
      cases n with
      | zero => simp at hs
      | succ n =>
        have hlen : cs.length ≤ n := by simpa using hs
        simp only [subAll, List.length_cons]
        have hpat : 1 ≤ lEnglishPat.length := by simp [lEnglishPat, chars]
        split
        · have hd : ((c :: cs).drop lEnglishPat.length).length ≤ n := by
            rw [List.length_drop]; simp only [List.length_cons]; omega
          have hd2 : ((c :: cs).drop lEnglishPat.length).length ≤ cs.length := by
            rw [List.length_drop]; simp only [List.length_cons]; omega
          rw [ih n (by omega) _ hd, ih cs.length (by omega) _ hd2]
        · rw [ih n (by omega) cs hlen]

theorem rewriteHeader_cons (rep : List Char) (c : Char) (cs : List Char) :
    rewriteHeader rep (c :: cs) =
      if lEnglishPat.isPrefixOf (c :: cs) then
        rep ++ rewriteHeader rep ((c :: cs).drop lEnglishPat.length)
      else c :: rewriteHeader rep cs := by
  unfold rewriteHeader
  show subAll rep (cs.length + 1) (c :: cs) = _
  simp only [subAll]
  split
  · rw [subAll_fuel rep cs.length ((c :: cs).drop lEnglishPat.length) (by simp [lEnglishPat, chars])]
  · rw [subAll_fuel rep cs.length cs (by simp)]

theorem containsSeq_cons_of {p : List Char} {cs : List Char} (c : Char)
    (h : containsSeq p cs = true) : containsSeq p (c :: cs) = true := by
  simp [containsSeq, h]

theorem containsSeq_of_isPrefixOf {p s : List Char} (hne : p ≠ [])
    (h : p.isPrefixOf s = true) : containsSeq p s = true := by
  cases s with
  | nil =>
    cases p with
    | nil => exact absurd rfl hne
    | cons a b => simp [List.isPrefixOf] at h
  | cons c cs => simp [containsSeq, h]

theorem isPrefixOf_append_right {p x : List Char} (y : List Char)
    (h : p.isPrefixOf x = true) : p.isPrefixOf (x ++ y) = true := by
  rw [List.isPrefixOf_iff_prefix] at h ⊢
  exact h.trans (List.prefix_append x y)

theorem containsSeq_append_right {p x : List Char} (y : List Char)
    (h : containsSeq p x = true) : containsSeq p (x ++ y) = true := by
  induction x with
  | nil =>
    have : p = [] := by simpa [containsSeq, List.isEmpty_iff] using h
    subst this
    cases y with
    | nil => rfl
    | cons c cs => simp [containsSeq, List.isPrefixOf]
  | cons c cs ih =>
    simp only [containsSeq, Bool.or_eq_true] at h
    rcases h with h | h
    · rw [List.cons_append]
      simp only [containsSeq, Bool.or_eq_true]
      exact Or.inl (isPrefixOf_append_right y h)
    · rw [List.cons_append]
      exact containsSeq_cons_of c (ih h)

theorem containsSeq_append_left {p : List Char} (x : List Char) {y : List Char}
    (h : containsSeq p y = true) : containsSeq p (x ++ y) = true := by
  induction x with
  | nil => simpa using h
  | cons c cs ih => exact containsSeq_cons_of c ih

theorem isPrefixOf_sep {p : List Char} {c0 : Char} (hc : c0 ∉ p) :
    ∀ (x y : List Char), p.isPrefixOf (x ++ c0 :: y) = true →
      p.isPrefixOf x = true := by
  induction p with
  | nil => intro x y _; simp [List.isPrefixOf]
  | cons a p2 ih =>
    intro x y h
    cases x with
    | nil =>
      simp only [List.nil_append, List.isPrefixOf, Bool.and_eq_true, beq_iff_eq] at h
      have ha : a = c0 := h.1
      subst ha
      exact absurd (List.mem_cons_self a p2) hc
    | cons b x2 =>
      simp only [List.cons_append, List.isPrefixOf, Bool.and_eq_true] at h ⊢
      exact ⟨h.1, ih (fun hm => hc (List.mem_cons_of_mem _ hm)) x2 y h.2⟩

theorem containsSeq_sep {p : List Char} {c0 : Char} (hc : c0 ∉ p) (hne : p ≠ []) :
    ∀ (x y : List Char), containsSeq p (x ++ c0 :: y) = true →
      containsSeq p x = true ∨ containsSeq p y = true := by
  intro x
  induction x with
  | nil =>
    intro y h
    simp only [List.nil_append, containsSeq, Bool.or_eq_true] at h
    rcases h with h | h
    · rcases p with _ | ⟨a, p2⟩
      · exact absurd rfl hne
      · simp only [List.isPrefixOf, Bool.and_eq_true, beq_iff_eq] at h
        have ha : a = c0 := h.1
        subst ha
        exact absurd (List.mem_cons_self a p2) hc
    · exact Or.inr h
  | cons b x2 ih =>
    intro y h
    rw [List.cons_append] at h
    simp only [containsSeq, Bool.or_eq_true] at h
    rcases h with h | h
    · exact Or.inl (containsSeq_of_isPrefixOf hne (isPrefixOf_sep hc (b :: x2) y h))
    · rcases ih y h with h2 | h2
      · exact Or.inl (containsSeq_cons_of b h2)
      · exact Or.inr h2

theorem containsSeq_joinNl {p : List Char} (hnl : '\n' ∉ p) (hne : p ≠ []) :
    ∀ (out : List (List Char)), (∀ l ∈ out, containsSeq p l = false) →
      containsSeq p (joinNl out) = false := by
  intro out
  induction out with
  | nil =>
    intro _
    show p.isEmpty = false
    simpa [List.isEmpty_iff] using hne
  | cons x ys ih =>
    intro hall
    cases ys with
    | nil => exact hall x (List.mem_cons_self _ _)
    | cons y rest =>
      show containsSeq p (x ++ '\n' :: joinNl (y :: rest)) = false
      by_contra hcon
      rcases containsSeq_sep hnl hne x (joinNl (y :: rest))
          (by simpa using hcon) with h | h
      · rw [hall x (List.mem_cons_self _ _)] at h
        exact absurd h (by simp)
      · rw [ih (fun l hl => hall l (List.mem_cons_of_mem _ hl))] at h
        exact absurd h (by simp)

theorem containsSeq_append_false {p x y : List Char}
    (h : containsSeq p (x ++ y) = false) :
    containsSeq p x = false ∧ containsSeq p y = false := by
  constructor
  · cases hx : containsSeq p x with
    | false => rfl
    | true => rw [containsSeq_append_right y hx] at h; exact h
  · cases hy : containsSeq p y with
    | false => rfl
    | true => rw [containsSeq_append_left x hy] at h; exact h

theorem containsSeq_cons_false {p : List Char} {c : Char} {y : List Char}
    (h : containsSeq p (c :: y) = false) : containsSeq p y = false := by
  cases hy : containsSeq p y with
  | false => rfl
  | true => rw [containsSeq_cons_of c hy] at h; exact h

theorem slNK_mem_containsSeq {p : List Char} :
    ∀ (s acc : List Char), containsSeq p (acc.reverse ++ s) = false →
      ∀ l ∈ slNK s acc, containsSeq p l = false := by
  intro s acc
  induction s, acc using slNK.induct with
  | case1 acc h => intro _ l hl; simp [slNK, h] at hl
  | case2 acc h =>
    intro hno l hl
    simp only [slNK, if_neg h, List.mem_singleton] at hl
    subst hl
    simpa using hno
  | case3 rest acc ih =>
    intro hno l hl
    simp only [slNK] at hl
    obtain ⟨hacc, htail⟩ := containsSeq_append_false hno
    have hrest := containsSeq_cons_false (containsSeq_cons_false htail)
    rcases List.mem_cons.1 hl with h | h
    · subst h; exact hacc
    · exact ih (by simpa using hrest) l h
  | case4 rest acc hr ih =>
    intro hno l hl
    rw [slNK.eq_3 acc rest hr] at hl
    obtain ⟨hacc, htail⟩ := containsSeq_append_false hno
    have hrest := containsSeq_cons_false htail
    rcases List.mem_cons.1 hl with h | h
    · subst h; exact hacc
    · exact ih (by simpa using hrest) l h
  | case5 rest acc ih =>
    intro hno l hl
    simp only [slNK] at hl
    obtain ⟨hacc, htail⟩ := containsSeq_append_false hno
    have hrest := containsSeq_cons_false htail
    rcases List.mem_cons.1 hl with h | h
    · subst h; exact hacc
    · exact ih (by simpa using hrest) l h
  | case6 c rest acc h1 h2 h3 ih =>
    intro hno l hl
    rw [slNK.eq_5 acc c rest h1 h2 h3] at hl
    refine ih ?_ l hl
    rw [show (c :: acc).reverse ++ rest = acc.reverse ++ c :: rest from by simp]
    exact hno

theorem rewriteHeader_id {rep s : List Char}
    (h : containsSeq lEnglishPat s = false) : rewriteHeader rep s = s := by
  induction s with
  | nil => rfl
  | cons c cs ih =>
    rw [rewriteHeader_cons]
    simp only [containsSeq, Bool.or_eq_false_iff] at h
    rw [if_neg (by simp [h.1]), ih h.2]

theorem containsSeq_pyLstrip {p l : List Char}
    (h : containsSeq p l = false) : containsSeq p (pyLstrip l) = false := by
  induction l with
  | nil => simpa [pyLstrip] using h
  | cons c cs ih =>
    simp only [pyLstrip]
    split
    · exact ih (containsSeq_cons_false h)
    · exact h

theorem containsSeq_pyRstrip {p l : List Char}
    (h : containsSeq p l = false) : containsSeq p (pyRstrip l) = false := by
  obtain ⟨w, hw⟩ := pyRstrip_prefix l
  rw [hw] at h
  exact (containsSeq_append_false h).1

theorem containsSeq_pyStrip {p l : List Char}
    (h : containsSeq p l = false) : containsSeq p (pyStrip l) = false :=
  containsSeq_pyRstrip (containsSeq_pyLstrip h)

theorem containsSeq_pat_two_spaces {x : List Char}
    (h : containsSeq lEnglishPat x = false) :
    containsSeq lEnglishPat (chars "  " ++ x) = false := by
  show containsSeq lEnglishPat (' ' :: ' ' :: x) = false
  have h1 : ∀ z : List Char, lEnglishPat.isPrefixOf (' ' :: z) = false := by
    intro z
    simp [lEnglishPat, chars, List.isPrefixOf]
  simp only [containsSeq, h1, Bool.false_or]
  exact h

theorem reindentLoop_containsSeq :
    ∀ (ls : List (List Char)) (hf : Bool),
      (∀ l ∈ ls, containsSeq lEnglishPat l = false) →
      ∀ l2 ∈ reindentLoop hf ls, containsSeq lEnglishPat l2 = false := by
  intro ls
  induction ls with
  | nil => intro hf _ l2 h; simp [reindentLoop] at h
  | cons l ls ih =>
    intro hf hall l2 hl2
    have hl : containsSeq lEnglishPat l = false := hall l (List.mem_cons_self _ _)
    have hrest : ∀ x ∈ ls, containsSeq lEnglishPat x = false :=
      fun x hx => hall x (List.mem_cons_of_mem _ hx)
    simp only [reindentLoop] at hl2
    split at hl2
    · rcases List.mem_cons.1 hl2 with h | h
      · subst h; exact hl
      · exact ih hf hrest l2 h
    · split at hl2
      · rcases List.mem_cons.1 hl2 with h | h
        · subst h; exact containsSeq_pyStrip hl
        · exact ih true hrest l2 h
      · rcases List.mem_cons.1 hl2 with h | h
        · subst h; exact containsSeq_pat_two_spaces (containsSeq_pyLstrip hl)
        · exact ih hf hrest l2 h

theorem reindent_containsSeq {t : List Char}
    (h : containsSeq lEnglishPat t = false) :
    containsSeq lEnglishPat (reindent t) = false := by
  unfold reindent
  refine containsSeq_joinNl (by decide) (by decide) _ ?_
  exact reindentLoop_containsSeq (pySplitlines t) false
    (slNK_mem_containsSeq t [] (by simpa using h))

/-!
## Claim C5 — idempotence of the reindentation/header-rewrite pass
-/

/-- Counterexample to C5 as stated: on the text `"x\n\n"` (which ends in a
blank line) the pass yields `"  x\n"`, but applying it a second time drops
the trailing line feed, yielding `"  x"`. -/
theorem c5_finalize_idem_counterexample :
    finalize (finalize (chars "x\n\n") (chars "czech")) (chars "czech") ≠
      finalize (chars "x\n\n") (chars "czech") := by decide

/-- Claim C5 (amended): the pass `finalize` (global `l_english:` replacement
followed by the reindentation loop) is idempotent on every text `t` and
language code `L` such that (a) after the replacement no occurrence of
`l_english:` remains (true for ordinary language codes), and (b) the
rewritten text does not end in an empty final line (e.g. with a doubled
trailing line terminator) — in that case the second application drops the
trailing line feed. -/
theorem c5_finalize_idem (t L : List Char)
    (h1 : containsSeq lEnglishPat (rewriteHeader (chars "l_" ++ L ++ [':']) t) = false)
    (h2 : (pySplitlines (rewriteHeader (chars "l_" ++ L ++ [':']) t)).getLast? ≠ some []) :
    finalize (finalize t L) L = finalize t L := by
  unfold finalize
  rw [rewriteHeader_id (reindent_containsSeq h1)]
  exact reindent_idem _ h2

/-- Witness for the amended C5. -/
theorem c5_finalize_idem_witness :
    finalize (finalize (chars "l_english:\n l_a:1 \"x\"") (chars "czech")) (chars "czech") =
      finalize (chars "l_english:\n l_a:1 \"x\"") (chars "czech") :=
  c5_finalize_idem (chars "l_english:\n l_a:1 \"x\"") (chars "czech")
    (by decide) (by decide)

/-!
## The rewrite distributes over line structure (towards C7)
-/

theorem isPrefixOf_not_mem_head {p : List Char} {c0 : Char} (hne : p ≠ [])
    (hc : c0 ∉ p) (z : List Char) : p.isPrefixOf (c0 :: z) = false := by
  cases p with
  | nil => exact absurd rfl hne
  | cons a p2 =>
    cases ha : (a == c0) with
    | false => simp [List.isPrefixOf, ha]
    | true =>
      have : a = c0 := by simpa using ha
      subst this
      exact absurd (List.mem_cons_self a p2) hc

theorem lEnglishPat_ne_nil : lEnglishPat ≠ [] := by decide

theorem rewriteHeader_sep {rep : List Char} {c0 : Char} (hc : c0 ∉ lEnglishPat) :
    ∀ (a b : List Char),
      rewriteHeader rep (a ++ c0 :: b) = rewriteHeader rep a ++ c0 :: rewriteHeader rep b := by
  suffices H : ∀ (n : Nat) (a : List Char), a.length ≤ n → ∀ b : List Char,
      rewriteHeader rep (a ++ c0 :: b) = rewriteHeader rep a ++ c0 :: rewriteHeader rep b by
    exact fun a b => H a.length a (le_refl _) b
  intro n
  induction n using Nat.strong_induction_on with
  | _ n ih =>
    intro a ha b
    cases a with
    | nil =>
      simp only [List.nil_append]
      rw [rewriteHeader_cons,
        if_neg (by simp [isPrefixOf_not_mem_head lEnglishPat_ne_nil hc])]
      rfl
    | cons x a2 =>
      have hn1 : 1 ≤ n := le_trans (by simp) ha
      have hassoc : (x :: a2) ++ c0 :: b = x :: (a2 ++ c0 :: b) := by simp
      rw [hassoc, rewriteHeader_cons]
      by_cases hp : lEnglishPat.isPrefixOf (x :: (a2 ++ c0 :: b)) = true
      · have hpa : lEnglishPat.isPrefixOf (x :: a2) = true :=
          isPrefixOf_sep hc (x :: a2) b (by rw [hassoc]; exact hp)
        have hlen : lEnglishPat.length ≤ (x :: a2).length := by
          rw [List.isPrefixOf_iff_prefix] at hpa
          exact hpa.length_le
        rw [if_pos hp]
        rw [rewriteHeader_cons rep x a2, if_pos hpa]
        have hdrop : List.drop lEnglishPat.length (x :: (a2 ++ c0 :: b))
            = List.drop lEnglishPat.length (x :: a2) ++ c0 :: b := by
          rw [← hassoc]
          exact List.drop_append_of_le_length hlen
        rw [hdrop, ih (n - 1) (by omega) ((x :: a2).drop lEnglishPat.length)
          (by
            rw [List.length_drop]
            simp only [List.length_cons] at ha ⊢
            have : 1 ≤ lEnglishPat.length := by decide
            omega) b]
        simp
      · rw [if_neg hp]
        rw [rewriteHeader_cons rep x a2,
          if_neg (by
            intro hcon
            refine hp ?_
            rw [← hassoc]
            exact isPrefixOf_append_right (c0 :: b) hcon)]
        rw [ih (n - 1) (by omega) a2
          (by simp only [List.length_cons] at ha; omega) b]
        simp

theorem rewriteHeader_mem {rep s : List Char} :
    ∀ c ∈ rewriteHeader rep s, c ∈ s ∨ c ∈ rep := by
  suffices H : ∀ (n : Nat) (s : List Char), s.length ≤ n →
      ∀ c ∈ rewriteHeader rep s, c ∈ s ∨ c ∈ rep by
    exact H s.length s (le_refl _)
  intro n
  induction n using Nat.strong_induction_on with
  | _ n ih =>
    intro s hs c hc
    cases s with
    | nil => simp [rewriteHeader, subAll] at hc
    | cons x s2 =>
      have hn1 : 1 ≤ n := le_trans (by simp) hs
      rw [rewriteHeader_cons] at hc
      split at hc
      · rcases List.mem_append.1 hc with h | h
        · exact Or.inr h
        · rcases ih (n - 1) (by omega) _ (by
              rw [List.length_drop]
              simp only [List.length_cons] at hs ⊢
              have : 1 ≤ lEnglishPat.length := by decide
              omega) c h with h2 | h2
          · exact Or.inl (List.mem_of_mem_drop h2)
          · exact Or.inr h2
      · rcases List.mem_cons.1 hc with h | h
        · exact Or.inl (h ▸ List.mem_cons_self _ _)
        · rcases ih (n - 1) (by omega) s2
            (by simp only [List.length_cons] at hs; omega) c h with h2 | h2
          · exact Or.inl (List.mem_cons_of_mem _ h2)
          · exact Or.inr h2

theorem rewriteHeader_noBreak {rep s : List Char} (hrep : noBreak rep)
    (hs : noBreak s) : noBreak (rewriteHeader rep s) := by
  intro c hc
  rcases rewriteHeader_mem c hc with h | h
  · exact hs c h
  · exact hrep c h

theorem rewriteHeader_ne_nil {rep : List Char} (hrep : rep ≠ []) {s : List Char}
    (hs : s ≠ []) : rewriteHeader rep s ≠ [] := by
  cases s with
  | nil => exact absurd rfl hs
  | cons x s2 =>
    rw [rewriteHeader_cons]
    split
    · simp [hrep]
    · simp

theorem rewriteHeader_head_not {rep : List Char} {c0 : Char} (hne : rep ≠ [])
    (hrep : rep.head? ≠ some c0) {s : List Char} (hs : s.head? ≠ some c0) :
    (rewriteHeader rep s).head? ≠ some c0 := by
  cases s with
  | nil => simp [rewriteHeader, subAll]
  | cons x s2 =>
    rw [rewriteHeader_cons]
    split
    · cases rep with
      | nil => exact absurd rfl hne
      | cons r rs => simpa using hrep
    · simpa using hs

theorem slNK_break_rn :
    ∀ (x : List Char), noBreak x → ∀ (acc z : List Char),
      slNK (x ++ '\r' :: '\n' :: z) acc = (acc.reverse ++ x) :: slNK z [] := by
  intro x
  induction x with
  | nil => intro _ acc z; simp [slNK]
  | cons c cs ih =>
    intro hnb acc z
    have hc := hnb c (List.mem_cons_self _ _)
    rw [show (c :: cs) ++ '\r' :: '\n' :: z = c :: (cs ++ '\r' :: '\n' :: z) from by simp,
      slNK.eq_5 acc c (cs ++ '\r' :: '\n' :: z)
        (fun r h1 h2 => hc.2 h1) (fun h => hc.2 h) (fun h => hc.1 h),
      ih (fun d hd => hnb d (List.mem_cons_of_mem _ hd)) (c :: acc) z]
    simp

theorem slNK_break_r :
    ∀ (x : List Char), noBreak x → ∀ (acc z : List Char), z.head? ≠ some '\n' →
      slNK (x ++ '\r' :: z) acc = (acc.reverse ++ x) :: slNK z [] := by
  intro x
  induction x with
  | nil =>
    intro _ acc z hz
    simp only [List.nil_append]
    rw [slNK.eq_3 acc z (by
      intro r hr
      rw [hr] at hz
      simp at hz)]
    simp
  | cons c cs ih =>
    intro hnb acc z hz
    have hc := hnb c (List.mem_cons_self _ _)
    rw [show (c :: cs) ++ '\r' :: z = c :: (cs ++ '\r' :: z) from by simp,
      slNK.eq_5 acc c (cs ++ '\r' :: z)
        (fun r h1 h2 => hc.2 h1) (fun h => hc.2 h) (fun h => hc.1 h),
      ih (fun d hd => hnb d (List.mem_cons_of_mem _ hd)) (c :: acc) z hz]
    simp

/-- Decomposition of a text at its first line terminator. -/
theorem splitDecomp : ∀ t : List Char,
    t = [] ∨ (noBreak t ∧ t ≠ []) ∨
    ∃ x term z, t = x ++ term ++ z ∧ noBreak x ∧
      (term = ['\n'] ∨ (term = ['\r'] ∧ z.head? ≠ some '\n') ∨ term = ['\r', '\n']) := by
  intro t
  induction t with
  | nil => exact Or.inl rfl
  | cons c rest ih =>
    by_cases hcn : c = '\n'
    · subst hcn
      exact Or.inr (Or.inr ⟨[], ['\n'], rest, by simp, by intro d hd; simp at hd, Or.inl rfl⟩)
    · by_cases hcr : c = '\r'
      · subst hcr
        rcases hrest : rest with _ | ⟨c2, r2⟩
        · exact Or.inr (Or.inr ⟨[], ['\r'], [], by simp, by intro d hd; simp at hd,
            Or.inr (Or.inl ⟨rfl, by simp⟩)⟩)
        · by_cases hc2 : c2 = '\n'
          · subst hc2
            exact Or.inr (Or.inr ⟨[], ['\r', '\n'], r2, by simp,
              by intro d hd; simp at hd, Or.inr (Or.inr rfl)⟩)
          · exact Or.inr (Or.inr ⟨[], ['\r'], c2 :: r2, by simp,
              by intro d hd; simp at hd, Or.inr (Or.inl ⟨rfl, by simpa using hc2⟩)⟩)
      · rcases ih with h | h | h
        · subst h
          exact Or.inr (Or.inl ⟨by
            intro d hd
            have : d = c := by simpa using hd
            subst this
            exact ⟨hcn, hcr⟩, by simp⟩)
        · exact Or.inr (Or.inl ⟨by
            intro d hd
            rcases List.mem_cons.1 hd with h2 | h2
            · subst h2; exact ⟨hcn, hcr⟩
            · exact h.1 d h2, by simp⟩)
        · obtain ⟨x, term, z, ht, hx, hterm⟩ := h
          refine Or.inr (Or.inr ⟨c :: x, term, z, by rw [ht]; simp, ?_, hterm⟩)
          intro d hd
          rcases List.mem_cons.1 hd with h2 | h2
          · subst h2; exact ⟨hcn, hcr⟩
          · exact hx d h2

theorem pySplitlines_rewriteHeader {rep : List Char} (hrep : noBreak rep)
    (hrepne : rep ≠ []) (hrephd : rep.head? ≠ some '\n') :
    ∀ t : List Char,
      pySplitlines (rewriteHeader rep t) = (pySplitlines t).map (rewriteHeader rep) := by
  suffices H : ∀ (n : Nat) (t : List Char), t.length ≤ n →
      pySplitlines (rewriteHeader rep t) = (pySplitlines t).map (rewriteHeader rep) by
    exact fun t => H t.length t (le_refl _)
  intro n
  induction n using Nat.strong_induction_on with
  | _ n ih =>
    intro t ht
    rcases splitDecomp t with h | h | h
    · subst h; rfl
    · obtain ⟨hnb, hne⟩ := h
      have e1 : pySplitlines t = [t] := by
        unfold pySplitlines
        simpa using slNK_noBreak_all t [] hnb (by simpa using hne)
      have e2 : pySplitlines (rewriteHeader rep t) = [rewriteHeader rep t] := by
        unfold pySplitlines
        simpa using slNK_noBreak_all (rewriteHeader rep t) []
          (rewriteHeader_noBreak hrep hnb)
          (by simpa using rewriteHeader_ne_nil hrepne hne)
      rw [e1, e2]
      simp
    · obtain ⟨x, term, z, ht2, hx, hterm⟩ := h
      subst ht2
      have hzlen : z.length < n := by
        rcases hterm with h | h | h <;>
          (subst_vars <;> simp_all <;> omega)
      have hrwx : noBreak (rewriteHeader rep x) := rewriteHeader_noBreak hrep hx
      rcases hterm with h | h | h
      · subst h
        have e1 : pySplitlines (x ++ ['\n'] ++ z) = x :: pySplitlines z := by
          unfold pySplitlines
          rw [show x ++ ['\n'] ++ z = x ++ '\n' :: z from by simp]
          rw [slNK_append_nl x hx [] z]
          simp
        have erw : rewriteHeader rep (x ++ ['\n'] ++ z)
            = rewriteHeader rep x ++ '\n' :: rewriteHeader rep z := by
          rw [show x ++ ['\n'] ++ z = x ++ '\n' :: z from by simp]
          exact rewriteHeader_sep (by decide) x z
        rw [erw, e1]
        unfold pySplitlines
        rw [slNK_append_nl (rewriteHeader rep x) hrwx [] (rewriteHeader rep z)]
        simp only [List.reverse_nil, List.nil_append, List.map_cons]
        rw [show slNK (rewriteHeader rep z) [] = pySplitlines (rewriteHeader rep z) from rfl,
          ih z.length (by omega) z (le_refl _)]
        rfl
      · obtain ⟨h, hz⟩ := h
        subst h
        have e1 : pySplitlines (x ++ ['\r'] ++ z) = x :: pySplitlines z := by
          unfold pySplitlines
          rw [show x ++ ['\r'] ++ z = x ++ '\r' :: z from by simp]
          rw [slNK_break_r x hx [] z hz]
          simp
        have erw : rewriteHeader rep (x ++ ['\r'] ++ z)
            = rewriteHeader rep x ++ '\r' :: rewriteHeader rep z := by
          rw [show x ++ ['\r'] ++ z = x ++ '\r' :: z from by simp]
          exact rewriteHeader_sep (by decide) x z
        rw [erw, e1]
        unfold pySplitlines
        rw [slNK_break_r (rewriteHeader rep x) hrwx [] (rewriteHeader rep z)
          (rewriteHeader_head_not hrepne hrephd hz)]
        simp only [List.reverse_nil, List.nil_append, List.map_cons]
        rw [show slNK (rewriteHeader rep z) [] = pySplitlines (rewriteHeader rep z) from rfl,
          ih z.length (by omega) z (le_refl _)]
        rfl
      · subst h
        have e1 : pySplitlines (x ++ ['\r', '\n'] ++ z) = x :: pySplitlines z := by
          unfold pySplitlines
          rw [show x ++ ['\r', '\n'] ++ z = x ++ '\r' :: '\n' :: z from by simp]
          rw [slNK_break_rn x hx [] z]
          simp
        have erw : rewriteHeader rep (x ++ ['\r', '\n'] ++ z)
            = rewriteHeader rep x ++ '\r' :: '\n' :: rewriteHeader rep z := by
          rw [show x ++ ['\r', '\n'] ++ z = x ++ '\r' :: ('\n' :: z) from by simp]
          rw [rewriteHeader_sep (by decide) x ('\n' :: z)]
          rw [show ('\n' :: z) = [] ++ '\n' :: z from rfl,
            rewriteHeader_sep (by decide) [] z]
          rfl
        rw [erw, e1]
        unfold pySplitlines
        rw [slNK_break_rn (rewriteHeader rep x) hrwx [] (rewriteHeader rep z)]
        simp only [List.reverse_nil, List.nil_append, List.map_cons]
        rw [show slNK (rewriteHeader rep z) [] = pySplitlines (rewriteHeader rep z) from rfl,
          ih z.length (by omega) z (le_refl _)]
        rfl

/-!
## Whitespace decompositions and line classification under the rewrite
-/

theorem pyLstrip_decomp (l : List Char) :
    ∃ ws1, l = ws1 ++ pyLstrip l ∧ ∀ c ∈ ws1, isPyWs c = true := by
  induction l with
  | nil => exact ⟨[], rfl, by intro c hc; simp at hc⟩
  | cons c cs ih =>
    by_cases h : isPyWs c
    · obtain ⟨ws1, hw, hws⟩ := ih
      refine ⟨c :: ws1, ?_, ?_⟩
      · simp only [pyLstrip, if_pos h]
        rw [List.cons_append, ← hw]
      · intro d hd
        rcases List.mem_cons.1 hd with h2 | h2
        · subst h2; exact h
        · exact hws d h2
    · refine ⟨[], ?_, by intro d hd; simp at hd⟩
      simp [pyLstrip, h]

theorem pyRstrip_decomp (l : List Char) :
    ∃ ws2, l = pyRstrip l ++ ws2 ∧ ∀ c ∈ ws2, isPyWs c = true := by
  induction l with
  | nil => exact ⟨[], rfl, by intro c hc; simp at hc⟩
  | cons c cs ih =>
    obtain ⟨ws2, hw, hws⟩ := ih
    simp only [pyRstrip]
    split
    · rename_i h
      refine ⟨c :: cs, rfl, ?_⟩
      intro d hd
      rcases List.mem_cons.1 hd with h2 | h2
      · subst h2; exact h.2
      · rw [hw] at h2
        rcases List.mem_append.1 h2 with h3 | h3
        · rw [h.1] at h3; simp at h3
        · exact hws d h3
    · exact ⟨ws2, by rw [List.cons_append, ← hw], hws⟩

theorem pyStrip_decomp (l : List Char) :
    ∃ ws1 ws2, l = ws1 ++ pyStrip l ++ ws2 ∧
      (∀ c ∈ ws1, isPyWs c = true) ∧ (∀ c ∈ ws2, isPyWs c = true) := by
  obtain ⟨ws1, hw1, hws1⟩ := pyLstrip_decomp l
  obtain ⟨ws2, hw2, hws2⟩ := pyRstrip_decomp (pyLstrip l)
  refine ⟨ws1, ws2, ?_, hws1, hws2⟩
  show l = ws1 ++ pyRstrip (pyLstrip l) ++ ws2
  rw [List.append_assoc, ← hw2, ← hw1]

theorem pyLstrip_ws_append {ws : List Char} (h : ∀ c ∈ ws, isPyWs c = true)
    (x : List Char) : pyLstrip (ws ++ x) = pyLstrip x := by
  induction ws with
  | nil => rfl
  | cons c cs ih =>
    rw [List.cons_append]
    simp only [pyLstrip, if_pos (h c (List.mem_cons_self _ _))]
    exact ih (fun d hd => h d (List.mem_cons_of_mem _ hd))

theorem pyRstrip_all_ws {ws : List Char} (h : ∀ c ∈ ws, isPyWs c = true) :
    pyRstrip ws = [] := by
  induction ws with
  | nil => rfl
  | cons c cs ih =>
    simp only [pyRstrip]
    rw [ih (fun d hd => h d (List.mem_cons_of_mem _ hd))]
    simp [h c (List.mem_cons_self _ _)]

theorem pyRstrip_append_ws {ws : List Char} (h : ∀ c ∈ ws, isPyWs c = true) :
    ∀ x : List Char, pyRstrip (x ++ ws) = pyRstrip x := by
  intro x
  induction x with
  | nil => simpa using pyRstrip_all_ws h
  | cons c cs ih =>
    rw [List.cons_append]
    simp only [pyRstrip, ih]

theorem pyRstrip_last_not_ws {c : Char} (h : isPyWs c = false) :
    ∀ y : List Char, pyRstrip (y ++ [c]) = y ++ [c] := by
  intro y
  induction y with
  | nil => simp [pyRstrip, h]
  | cons d y2 ih =>
    rw [List.cons_append]
    simp only [pyRstrip, ih]
    have : y2 ++ [c] ≠ [] := by simp
    simp [this]

theorem pyStrip_exact {x : List Char} {ws1 ws2 : List Char}
    (h1 : ∀ c ∈ ws1, isPyWs c = true) (h2 : ∀ c ∈ ws2, isPyWs c = true)
    {c0 : Char} {x2 : List Char} (hx : x = c0 :: x2) (hc0 : isPyWs c0 = false)
    {cl : Char} {y : List Char} (hxl : x = y ++ [cl]) (hcl : isPyWs cl = false) :
    pyStrip (ws1 ++ x ++ ws2) = x := by
  unfold pyStrip
  rw [List.append_assoc, pyLstrip_ws_append h1 (x ++ ws2)]
  have hl : pyLstrip (x ++ ws2) = x ++ ws2 := by
    rw [hx, List.cons_append]
    simp [pyLstrip, hc0]
  rw [hl, pyRstrip_append_ws h2 x, hxl, pyRstrip_last_not_ws hcl]

theorem pat_not_isPrefixOf_ws {c : Char} (h : isPyWs c = true) (z : List Char) :
    lEnglishPat.isPrefixOf (c :: z) = false := by
  cases hl : ('l' == c) with
  | false => simp [lEnglishPat, chars, List.isPrefixOf, hl]
  | true =>
    have : 'l' = c := by simpa using hl
    subst this
    simp [isPyWs] at h

theorem containsSeq_pat_allWs {ws : List Char} (h : ∀ c ∈ ws, isPyWs c = true) :
    containsSeq lEnglishPat ws = false := by
  induction ws with
  | nil => rfl
  | cons c cs ih =>
    simp only [containsSeq, Bool.or_eq_false_iff]
    exact ⟨pat_not_isPrefixOf_ws (h c (List.mem_cons_self _ _)) cs,
      ih (fun d hd => h d (List.mem_cons_of_mem _ hd))⟩

theorem rewriteHeader_allWs {rep ws : List Char} (h : ∀ c ∈ ws, isPyWs c = true) :
    rewriteHeader rep ws = ws :=
  rewriteHeader_id (containsSeq_pat_allWs h)

theorem rewriteHeader_ws_append {rep ws : List Char} (h : ∀ c ∈ ws, isPyWs c = true) :
    ∀ m : List Char, rewriteHeader rep (ws ++ m) = ws ++ rewriteHeader rep m := by
  intro m
  induction ws with
  | nil => rfl
  | cons c cs ih =>
    rw [List.cons_append, rewriteHeader_cons,
      if_neg (by simp [pat_not_isPrefixOf_ws (h c (List.mem_cons_self _ _))]),
      ih (fun d hd => h d (List.mem_cons_of_mem _ hd))]
    rfl

theorem pyStrip_nil_allWs {l : List Char} (h : pyStrip l = []) :
    ∀ c ∈ l, isPyWs c = true := by
  have hls : pyLstrip l = [] := by
    rcases hd : pyLstrip l with _ | ⟨c, cs⟩
    · rfl
    · unfold pyStrip at h
      rw [hd, pyRstrip_cons_ne_nil (pyLstrip_head_not_ws hd)] at h
      simp at h
  obtain ⟨ws1, hw, hws⟩ := pyLstrip_decomp l
  rw [hls] at hw
  simp only [List.append_nil] at hw
  rw [hw]
  exact hws

/-- The rewrite of a blank-or-comment line is still blank-or-comment. -/
theorem blankOrComment_rewriteHeader {rep l : List Char}
    (h : blankOrComment l) : blankOrComment (rewriteHeader rep l) := by
  rcases h with h | h
  · rw [rewriteHeader_allWs (pyStrip_nil_allWs h)]
    exact Or.inl h
  · rcases hs : pyStrip l with _ | ⟨c, m⟩
    · rw [hs] at h; simp at h
    · have hc : c = '#' := by
        rw [hs] at h; simpa using h
      subst hc
      obtain ⟨ws1, ws2, hdec, hws1, hws2⟩ := pyStrip_decomp l
      rw [hs] at hdec
      rw [hdec, List.append_assoc, rewriteHeader_ws_append hws1]
      rw [show ('#' :: m) ++ ws2 = '#' :: (m ++ ws2) from by simp]
      rw [rewriteHeader_cons, if_neg (by
        rw [isPrefixOf_not_mem_head lEnglishPat_ne_nil
          (show ('#' : Char) ∉ lEnglishPat by decide) (m ++ ws2)]
        simp)]
      refine Or.inr ?_
      unfold pyStrip
      rw [pyLstrip_ws_append hws1]
      have hl : pyLstrip ('#' :: rewriteHeader rep (m ++ ws2))
          = '#' :: rewriteHeader rep (m ++ ws2) := by
        simp [pyLstrip, isPyWs]
      rw [hl, pyRstrip_cons_ne_nil (show isPyWs '#' = false by decide)]
      simp

theorem rewriteHeader_pat_append {rep ws2 : List Char}
    (h2 : ∀ c ∈ ws2, isPyWs c = true) :
    rewriteHeader rep (lEnglishPat ++ ws2) = rep ++ ws2 := by
  have hshape : lEnglishPat ++ ws2 = 'l' :: (chars "_english:" ++ ws2) := by
    simp [lEnglishPat, chars]
  rw [hshape, rewriteHeader_cons]
  have hpre : lEnglishPat.isPrefixOf ('l' :: (chars "_english:" ++ ws2)) = true := by
    rw [← hshape]
    refine isPrefixOf_append_right ws2 ?_
    simp [List.isPrefixOf_iff_prefix]
  rw [if_pos hpre]
  have hdrop : ('l' :: (chars "_english:" ++ ws2)).drop lEnglishPat.length = ws2 := by
    rw [← hshape]
    exact List.drop_left _ _
  rw [hdrop, rewriteHeader_allWs h2]

/-- The rewrite of a line whose stripped form is exactly `l_english:` is the
same line with the replacement in place of the pattern. -/
theorem rewriteHeader_header_line {rep h : List Char}
    (hs : pyStrip h = lEnglishPat) :
    ∃ ws1 ws2, rewriteHeader rep h = ws1 ++ rep ++ ws2 ∧
      (∀ c ∈ ws1, isPyWs c = true) ∧ (∀ c ∈ ws2, isPyWs c = true) := by
  obtain ⟨ws1, ws2, hdec, hws1, hws2⟩ := pyStrip_decomp h
  rw [hs] at hdec
  refine ⟨ws1, ws2, ?_, hws1, hws2⟩
  rw [hdec, List.append_assoc, rewriteHeader_ws_append hws1,
    rewriteHeader_pat_append hws2, List.append_assoc]

theorem lz_shape (L : List Char) :
    chars "l_" ++ L ++ [':'] = 'l' :: '_' :: (L ++ [':']) := by
  simp [chars]

theorem pyStrip_lz (L : List Char) :
    pyStrip (chars "l_" ++ L ++ [':']) = chars "l_" ++ L ++ [':'] := by
  unfold pyStrip
  rw [lz_shape]
  have h1 : pyLstrip ('l' :: '_' :: (L ++ [':'])) = 'l' :: '_' :: (L ++ [':']) := by
    simp [pyLstrip, isPyWs]
  rw [h1, show 'l' :: '_' :: (L ++ [':']) = ('l' :: '_' :: L) ++ [':'] from by simp,
    pyRstrip_last_not_ws (show isPyWs ':' = false by decide)]

theorem headerMatch_lz {L : List Char} (hL1 : L ≠ []) (hL2 : L.head? ≠ some ':') :
    headerMatch (chars "l_" ++ L ++ [':']) = true := by
  rcases L with _ | ⟨c, L2⟩
  · exact absurd rfl hL1
  · rw [lz_shape]
    have hcc : c ≠ ':' := by simpa using hL2
    show headerMatch ('l' :: '_' :: c :: (L2 ++ [':'])) = true
    unfold headerMatch
    simp [hcc]

theorem not_blankOrComment_lz (L : List Char) :
    ¬ blankOrComment (chars "l_" ++ L ++ [':']) := by
  unfold blankOrComment
  rw [pyStrip_lz, lz_shape]
  simp

theorem noBreak_lz {L : List Char} (h : noBreak L) :
    noBreak (chars "l_" ++ L ++ [':']) := by
  intro c hc
  rw [lz_shape] at hc
  rcases List.mem_cons.1 hc with h2 | h2
  · subst h2; exact ⟨by decide, by decide⟩
  · rcases List.mem_cons.1 h2 with h3 | h3
    · subst h3; exact ⟨by decide, by decide⟩
    · rcases List.mem_append.1 h3 with h4 | h4
      · exact h c h4
      · have : c = ':' := by simpa using h4
        subst this
        exact ⟨by decide, by decide⟩

theorem reindentLoop_passthrough {pre : List (List Char)}
    (h : ∀ l ∈ pre, blankOrComment l) (hf : Bool) (rest : List (List Char)) :
    reindentLoop hf (pre ++ rest) = pre ++ reindentLoop hf rest := by
  induction pre with
  | nil => simp
  | cons l pre2 ih =>
    rw [List.cons_append]
    simp only [reindentLoop, if_pos (h l (List.mem_cons_self _ _))]
    rw [ih (fun x hx => h x (List.mem_cons_of_mem _ hx))]
    simp

theorem firstStructural_joinNl :
    ∀ (pre : List (List Char)), (∀ l ∈ pre, blankOrComment l ∧ noBreak l) →
      ∀ (s : List Char), ¬ blankOrComment s → noBreak s → s ≠ [] →
      ∀ (rest : List (List Char)),
        firstStructuralLine (joinNl (pre ++ s :: rest)) = some s := by
  intro pre
  induction pre with
  | nil =>
    intro _ s hs hsnb hsne rest
    simp only [List.nil_append]
    cases rest with
    | nil =>
      unfold firstStructuralLine
      show (pySplitlines (joinNl [s])).find? _ = some s
      have : joinNl [s] = s := rfl
      rw [this, show pySplitlines s = [s] from by
        simpa using slNK_noBreak_all s [] hsnb (by simpa using hsne)]
      exact List.find?_cons_of_pos _ (by simpa using hs)
    | cons r rest2 =>
      unfold firstStructuralLine
      rw [joinNl_cons (by simp)]
      show (pySplitlines (s ++ '\n' :: joinNl (r :: rest2))).find? _ = some s
      unfold pySplitlines
      rw [slNK_append_nl s hsnb [] (joinNl (r :: rest2))]
      simp only [List.reverse_nil, List.nil_append]
      exact List.find?_cons_of_pos _ (by simpa using hs)
  | cons l pre2 ih =>
    intro hpre s hs hsnb hsne rest
    rw [List.cons_append, joinNl_cons (by simp)]
    unfold firstStructuralLine
    show (pySplitlines (l ++ '\n' :: joinNl (pre2 ++ s :: rest))).find? _ = some s
    unfold pySplitlines
    rw [slNK_append_nl l (hpre l (List.mem_cons_self _ _)).2 [] (joinNl (pre2 ++ s :: rest))]
    simp only [List.reverse_nil, List.nil_append]
    rw [List.find?_cons_of_neg _ (by simpa using (hpre l (List.mem_cons_self _ _)).1)]
    exact ih (fun x hx => hpre x (List.mem_cons_of_mem _ hx)) s hs hsnb hsne rest

/-!
## Claim C7 — header rewrite
-/

theorem pySplitlinesRewriteEq {rep : List Char} (h1 : noBreak rep) (h2 : rep ≠ [])
    (h3 : rep.head? ≠ some '\n') (t : List Char) {pre post : List (List Char)}
    {h : List Char} (hs : pySplitlines t = pre ++ h :: post) :
    pySplitlines (rewriteHeader rep t)
      = pre.map (rewriteHeader rep) ++ rewriteHeader rep h :: post.map (rewriteHeader rep) := by
  rw [pySplitlines_rewriteHeader h1 h2 h3 t, hs, List.map_append, List.map_cons]

/-- Counterexample to C7 as stated: the text `"foo\nl_english:"` contains
`l_english:` as its sole header line, yet after the header rewrite and the
reindentation pass the first non-blank, non-comment line of the output is
the indented body line `"  foo"`, not `l_czech:` — the reindentation loop
only strips the first header-matching line, it does not move it first. -/
theorem c7_header_rewrite_counterexample :
    firstStructuralLine (finalize (chars "foo\nl_english:") (chars "czech"))
      = some (chars "  foo") ∧ chars "  foo" ≠ chars "l_czech:" := by decide

/-- Claim C7 (amended): if every line before the sole `l_english:` header
line is blank or a comment, and the language code `L` is non-empty, does not
start with a colon and contains no line break, then the first non-blank,
non-comment line of the pipeline's output (header rewrite followed by the
reindentation pass, with the translation treated as identity) is exactly
`l_<L>:` with no leading or trailing whitespace. -/
theorem c7_header_rewrite_output (t L : List Char) (pre post : List (List Char))
    (h : List Char)
    (hsplit : pySplitlines t = pre ++ h :: post)
    (hpre : ∀ l ∈ pre, blankOrComment l)
    (hh : pyStrip h = lEnglishPat)
    (hL1 : L ≠ []) (hL2 : L.head? ≠ some ':') (hLnb : noBreak L) :
    firstStructuralLine (finalize t L) = some (chars "l_" ++ L ++ [':']) := by
  have hrepnb : noBreak (chars "l_" ++ L ++ [':']) := noBreak_lz hLnb
  have hrepne : chars "l_" ++ L ++ [':'] ≠ [] := by rw [lz_shape]; simp
  have hrephd : (chars "l_" ++ L ++ [':']).head? ≠ some '\n' := by
    rw [lz_shape]
    intro hcon
    simp at hcon
  have hprenb : ∀ l ∈ pre, noBreak l := by
    intro l hl
    refine slNK_mem_noBreak t [] (by simp) l ?_
    show l ∈ pySplitlines t
    rw [hsplit]
    exact List.mem_append_left _ hl
  unfold finalize reindent
  rw [pySplitlinesRewriteEq hrepnb hrepne hrephd t hsplit]
  have hpre2 : ∀ l2 ∈ pre.map (rewriteHeader (chars "l_" ++ L ++ [':'])),
      blankOrComment l2 := by
    intro l2 hl2
    obtain ⟨l, hl, rfl⟩ := List.mem_map.1 hl2
    exact blankOrComment_rewriteHeader (hpre l hl)
  rw [reindentLoop_passthrough hpre2 false _]
  obtain ⟨ws1, ws2, hrwh, hws1, hws2⟩ :=
    @rewriteHeader_header_line (chars "l_" ++ L ++ [':']) h hh
  have hsrw : pyStrip (rewriteHeader (chars "l_" ++ L ++ [':']) h)
      = chars "l_" ++ L ++ [':'] := by
    rw [hrwh]
    exact pyStrip_exact hws1 hws2 (lz_shape L) (by decide)
      (show chars "l_" ++ L ++ [':'] = ('l' :: '_' :: L) ++ [':'] from by simp [chars])
      (by decide)
  have hbc : ¬ blankOrComment (rewriteHeader (chars "l_" ++ L ++ [':']) h) := by
    unfold blankOrComment
    rw [hsrw, lz_shape]
    simp
  have hloop : reindentLoop false
      (rewriteHeader (chars "l_" ++ L ++ [':']) h ::
        post.map (rewriteHeader (chars "l_" ++ L ++ [':'])))
      = (chars "l_" ++ L ++ [':']) ::
        reindentLoop true (post.map (rewriteHeader (chars "l_" ++ L ++ [':']))) := by
    simp only [reindentLoop]
    rw [if_neg hbc, if_pos ⟨by trivial, by rw [hsrw]; exact headerMatch_lz hL1 hL2⟩, hsrw]
  rw [hloop]
  refine firstStructural_joinNl (pre.map (rewriteHeader (chars "l_" ++ L ++ [':'])))
    ?_ (chars "l_" ++ L ++ [':']) (not_blankOrComment_lz L) hrepnb hrepne _
  intro l2 hl2
  obtain ⟨l, hl, rfl⟩ := List.mem_map.1 hl2
  exact ⟨blankOrComment_rewriteHeader (hpre l hl),
    rewriteHeader_noBreak hrepnb (hprenb l hl)⟩

/-- Witness for the amended C7. -/
theorem c7_header_rewrite_output_witness :
    firstStructuralLine
        (finalize (chars "# note\nl_english:\n l_x:1 \"v\"") (chars "czech"))
      = some (chars "l_" ++ chars "czech" ++ [':']) :=
  c7_header_rewrite_output (chars "# note\nl_english:\n l_x:1 \"v\"") (chars "czech")
    [chars "# note"] [chars " l_x:1 \"v\""] (chars "l_english:")
    (by decide) (by decide) (by decide) (by decide) (by decide) (by decide)

/-!
## Serializer line lemmas (towards C6 and C1)
-/

theorem takeWhile_append_not {p : Char → Bool} :
    ∀ {xs : List Char}, (∀ c ∈ xs, p c = true) → ∀ {y : Char}, p y = false →
      ∀ (rest : List Char),
        (xs ++ y :: rest).takeWhile p = xs ∧ (xs ++ y :: rest).dropWhile p = y :: rest := by
  intro xs
  induction xs with
  | nil =>
    intro _ y hy rest
    constructor
    · simp [List.takeWhile_cons, hy]
    · simp [List.dropWhile_cons, hy]
  | cons x xs2 ih =>
    intro hxs y hy rest
    have hx : p x = true := hxs x (List.mem_cons_self _ _)
    have := ih (fun c hc => hxs c (List.mem_cons_of_mem _ hc)) hy rest
    constructor
    · rw [List.cons_append, List.takeWhile_cons, if_pos hx, this.1]
    · rw [List.cons_append, List.dropWhile_cons, if_pos hx, this.2]

theorem goodEntryKey_shape {k : Key} (h : goodEntryKey k = true) :
    ∃ run d, k = 'l' :: '_' :: run ++ [':', d] ∧ run ≠ [] ∧
      (∀ c ∈ run, isWordChar c = true) ∧ d.isDigit = true := by
  unfold goodEntryKey at h
  split at h
  case _ rest =>
    simp only [Bool.and_eq_true] at h
    obtain ⟨hrun, hdrop⟩ := h
    split at hdrop
    case _ d hd =>
      refine ⟨rest.takeWhile isWordChar, d, ?_, by simpa using hrun,
        fun c hc => List.mem_takeWhile_imp hc, hdrop⟩
      conv_lhs => rw [← List.takeWhile_append_dropWhile (p := isWordChar) (l := rest)]
      rw [hd]
      simp
    case _ => exact absurd hdrop (by simp)
  case _ => exact absurd h (by simp)

theorem digit_not_special {d : Char} (h : d.isDigit = true) :
    d ≠ ':' ∧ isPyWs d = false ∧ isWordChar d = true := by
  refine ⟨?_, ?_, ?_⟩
  · intro hc; subst hc; simp at h
  · unfold Char.isDigit at h
    simp only [Bool.and_eq_true, decide_eq_true_eq] at h
    unfold isPyWs
    have h1 : ¬ d = ' ' := by intro hc; subst hc; simp at h
    have h2 : ¬ d = '\t' := by intro hc; subst hc; simp at h
    have h3 : ¬ d = '\n' := by intro hc; subst hc; simp at h
    have h4 : ¬ d = '\r' := by intro hc; subst hc; simp at h
    have h5 : ¬ d = '\x0b' := by intro hc; subst hc; simp at h
    have h6 : ¬ d = '\x0c' := by intro hc; subst hc; simp at h
    simp [h1, h2, h3, h4, h5, h6]
  · unfold isWordChar
    simp [h]

theorem emitKey_good {k : Key} (h : goodEntryKey k = true) : emitKey k = k := by
  obtain ⟨run, d, hk, hrun, hw, hd⟩ := goodEntryKey_shape h
  unfold emitKey
  rw [hk]
  rw [if_neg ?_]
  rw [show 'l' :: '_' :: run ++ [':', d] = ('l' :: '_' :: run ++ [':']) ++ [d] from by simp]
  rw [List.getLast?_concat]
  intro hcon
  have : d = ':' := by simpa using hcon
  exact (digit_not_special hd).1 this

theorem goodChar_not_special {c : Char} (h : goodChar c = true) :
    ¬ (c = '"' ∨ c = '\\') := by
  intro hcon
  rcases hcon with hc | hc <;> (subst hc; simp [goodChar] at h)

theorem escapeDQ_id {v : Value} (h : goodValue v = true) : escapeDQ v = v := by
  unfold escapeDQ
  induction v with
  | nil => rfl
  | cons c cs ih =>
    unfold goodValue at h
    simp only [List.all_cons, Bool.and_eq_true] at h
    rw [List.map_cons, List.flatten_cons,
      if_neg (goodChar_not_special h.1)]
    have := ih (by simpa [goodValue] using h.2)
    simp only at this
    rw [this]
    rfl

/-- `colonFix` on the `yaml.dump` line of an entry with a digit-versioned
key: the second colon (and the space after it) become a single space. -/
theorem colonFix_entry {k : Key} (hk : goodEntryKey k = true) (w : List Char) :
    colonFix (chars "  " ++ k ++ ':' :: ' ' :: '"' :: w)
      = chars "  " ++ k ++ ' ' :: '"' :: w := by
  obtain ⟨run, d, hkeq, hrun, hword, hd⟩ := goodEntryKey_shape hk
  subst hkeq
  have hl : chars "  " ++ ('l' :: '_' :: run ++ [':', d]) ++ ':' :: ' ' :: '"' :: w
      = [' ', ' '] ++ 'l' :: ('_' :: (run ++ ':' :: (d :: ':' :: ' ' :: '"' :: w))) := by
    simp [chars]
  rw [hl]
  have hws2 : ∀ c ∈ ([' ', ' '] : List Char), isPyWs c = true := by decide
  have hsp := takeWhile_append_not hws2 (show isPyWs 'l' = false from by decide)
    ('_' :: (run ++ ':' :: (d :: ':' :: ' ' :: '"' :: w)))
  simp only [colonFix, hsp.1, hsp.2]
  have hsp2 := takeWhile_append_not hword (show isWordChar ':' = false from by decide)
    (d :: ':' :: ' ' :: '"' :: w)
  simp only [hsp2.1, hsp2.2]
  rw [if_neg (by simpa using hrun)]
  rw [if_pos hd]
  have hdw : (' ' :: '"' :: w).dropWhile isPyWs = '"' :: w := by
    rw [List.dropWhile_cons, if_pos (by decide), List.dropWhile_cons, if_neg (by decide)]
  rw [hdw]
  simp [chars]

/-!
## Claim C6 — serialized entry shape
-/

/-- Counterexample to C6 as stated: an entry key without a version digit
(`l_x:`) is emitted single-quoted with the colon separator left in place —
the substitution `^(\s*l_[A-Za-z0-9_]+:\d):\s*` requires the digit, and the
emitter quotes a plain-unsafe key — so the line is `  'l_x:': "v"`, not
`  l_x: "v"`. -/
theorem c6_entry_shape_counterexample :
    serializeDoc [(chars "l_a", [(chars "l_x:", chars "v")])]
      = chars "l_a:\n  " ++ squote :: chars "l_x:" ++ squote :: chars ": \"v\"\n" := by
  decide

/-- Claim C6 (amended): for every Document and every Entry in it whose key
carries a single-digit version suffix (`l_<word>:<digit>`) and whose value
is in the emitter-verbatim range, the serializer's output line for that
Entry is exactly `  <key> "<value>"` — raw key unquoted, one space, the
double-quoted value, no colon between key and value.  Keys whose version
suffix is absent keep a colon and quotes (see the counterexample). -/
theorem c6_entry_line_in_output (doc : Document) (hkey : Key) (es : Block)
    (k : Key) (v : Value) (hb : (hkey, es) ∈ doc) (he : (k, v) ∈ es)
    (hk : goodEntryKey k = true) (hv : goodValue v = true) :
    (chars "  " ++ k ++ ' ' :: '"' :: v ++ ['"']) ∈ serializeLines doc := by
  unfold serializeLines
  have hline : (chars "  " ++ k ++ ' ' :: '"' :: v ++ ['"'])
      = colonFix (chars "  " ++ emitKey k ++ ':' :: ' ' :: '"' :: escapeDQ v ++ ['"']) := by
    rw [emitKey_good hk, escapeDQ_id hv,
      show chars "  " ++ k ++ ':' :: ' ' :: '"' :: v ++ ['"']
        = chars "  " ++ k ++ ':' :: ' ' :: '"' :: (v ++ ['"']) from by simp,
      colonFix_entry hk (v ++ ['"'])]
    simp
  rw [hline]
  refine List.mem_map_of_mem colonFix ?_
  unfold yamlLines
  rw [if_neg (by
    intro hcon
    rw [hcon] at hb
    simp at hb)]
  refine List.mem_flatten.2 ⟨yamlBlockLines hkey es, ?_, ?_⟩
  · exact List.mem_map_of_mem _ hb
  · unfold yamlBlockLines
    rw [if_neg (by
      intro hcon
      rw [hcon] at he
      simp at he)]
    refine List.mem_cons_of_mem _ ?_
    have := List.mem_map_of_mem
      (fun kv : Key × Value =>
        chars "  " ++ emitKey kv.1 ++ ':' :: ' ' :: '"' :: escapeDQ kv.2 ++ ['"']) he
    simpa using this

/-- Witness for the amended C6. -/
theorem c6_entry_line_in_output_witness :
    (chars "  " ++ chars "l_x:1" ++ ' ' :: '"' :: chars "v" ++ ['"'])
      ∈ serializeLines [(chars "l_a", [(chars "l_x:1", chars "v")])] :=
  c6_entry_line_in_output [(chars "l_a", [(chars "l_x:1", chars "v")])]
    (chars "l_a") [(chars "l_x:1", chars "v")] (chars "l_x:1") (chars "v")
    (by decide) (by decide) (by decide) (by decide)

/-!
## Claim C9 — adding a language to the registry
-/

theorem lookup_none {β : Type} (k : Key) :
    ∀ l : List (Key × β), (∀ p ∈ l, p.1 ≠ k) → List.lookup k l = none := by
  intro l
  induction l with
  | nil => intro _; rfl
  | cons b l2 ih =>
    intro h
    rcases b with ⟨k2, v2⟩
    have hb : (k == k2) = false := by
      simp only [beq_eq_false_iff_ne]
      exact fun hc => h (k2, v2) (List.mem_cons_self _ _) (by simp [hc])
    simp only [List.lookup, hb]
    exact ih (fun p hp => h p (List.mem_cons_of_mem _ hp))

theorem mem_of_lookup {β : Type} :
    ∀ {l : List (Key × β)} {k : Key} {v : β}, List.lookup k l = some v → (k, v) ∈ l := by
  intro l
  induction l with
  | nil => intro k v h; simp [List.lookup] at h
  | cons b l2 ih =>
    intro k v h
    rcases b with ⟨k2, v2⟩
    simp only [List.lookup] at h
    split at h
    · rename_i hbeq
      have hk : k = k2 := by simpa using hbeq
      have hv : v2 = v := by simpa using h
      subst hk; subst hv
      exact List.mem_cons_self _ _
    · exact List.mem_cons_of_mem _ (ih h)

theorem lookup_updmap (L : List Char) (native : Value) (key : Key) :
    ∀ doc : Document,
      List.lookup key (doc.map (fun b =>
        (b.1, if (List.lookup (chars "l_" ++ L) b.2).isSome then b.2
          else updAssoc (chars "l_" ++ L ++ chars ":1") native b.2)))
      = (List.lookup key doc).map (fun es =>
          if (List.lookup (chars "l_" ++ L) es).isSome then es
          else updAssoc (chars "l_" ++ L ++ chars ":1") native es) := by
  intro doc
  induction doc with
  | nil => rfl
  | cons b doc2 ih =>
    rcases b with ⟨k2, es2⟩
    simp only [List.map_cons, List.lookup]
    cases hb : (key == k2) with
    | false => simpa [hb] using ih
    | true => simp

theorem updAssoc_fresh {β : Type} (k : Key) (v : β) :
    ∀ l : List (Key × β), (∀ p ∈ l, p.1 ≠ k) → updAssoc k v l = l ++ [(k, v)] := by
  intro l
  induction l with
  | nil => intro _; rfl
  | cons b l2 ih =>
    intro h
    rcases b with ⟨k2, v2⟩
    simp only [updAssoc]
    rw [if_neg (h (k2, v2) (List.mem_cons_self _ _)), ih
      (fun p hp => h p (List.mem_cons_of_mem _ hp))]
    simp

/-- Claim C9: adding a new language `L` (with externally resolved native
name `native`) to a registry Document that does not already know `L` and
that has an `l_english` template block appends the Entry `l_<L>:1 ↦ native`
at the end of every existing Block and appends one new Block `l_<L>` whose
entries equal the (updated) `l_english` Block's entries. -/
theorem c9_update_languages (doc : Document) (L : List Char) (native : Value)
    (engEs : Block)
    (hhead : ∀ b ∈ doc, b.1 ≠ chars "l_" ++ L)
    (hfresh : ∀ b ∈ doc, ∀ p ∈ b.2,
      p.1 ≠ chars "l_" ++ L ∧ p.1 ≠ chars "l_" ++ L ++ chars ":1")
    (heng : doc.lookup (chars "l_english") = some engEs) :
    update_languages_yml doc L native
      = doc.map (fun b => (b.1, b.2 ++ [(chars "l_" ++ L ++ chars ":1", native)]))
        ++ [(chars "l_" ++ L, engEs ++ [(chars "l_" ++ L ++ chars ":1", native)])] := by
  have hlk : List.lookup (chars "l_" ++ L) doc = none := lookup_none _ doc hhead
  have hmapEq : doc.map (fun b =>
        (b.1, if (List.lookup (chars "l_" ++ L) b.2).isSome then b.2
          else updAssoc (chars "l_" ++ L ++ chars ":1") native b.2))
      = doc.map (fun b => (b.1, b.2 ++ [(chars "l_" ++ L ++ chars ":1", native)])) := by
    refine List.map_congr_left ?_
    intro b hb
    have h1 : List.lookup (chars "l_" ++ L) b.2 = none :=
      lookup_none _ b.2 (fun p hp => (hfresh b hb p hp).1)
    rw [h1]
    simp only [Option.isSome_none, Bool.false_eq_true, if_false]
    rw [updAssoc_fresh _ _ b.2 (fun p hp => (hfresh b hb p hp).2)]
  unfold update_languages_yml
  simp only [hlk, Option.isSome_none, Bool.false_eq_true, if_false]
  rw [lookup_updmap L native (chars "l_" ++ L) doc, hlk]
  simp only [Option.map_none', Option.isSome_none, Bool.false_eq_true, if_false]
  rw [lookup_updmap L native (chars "l_english") doc, heng]
  simp only [Option.map_some']
  have hengFresh : List.lookup (chars "l_" ++ L) engEs = none :=
    lookup_none _ engEs
      (fun p hp => (hfresh (chars "l_english", engEs) (mem_of_lookup heng) p hp).1)
  rw [hengFresh]
  simp only [Option.isSome_none, Bool.false_eq_true, if_false]
  rw [updAssoc_fresh _ _ engEs
    (fun p hp => (hfresh (chars "l_english", engEs) (mem_of_lookup heng) p hp).2)]
  rw [hmapEq]

/-- Witness for C9: the spec's scenario — registry with `l_english` and
`l_french` blocks each containing `l_english:1` and `l_french:1`, adding
`polish` yields three blocks, each with an additional `l_polish:1` entry,
the new `l_polish` block cloned from the updated `l_english` block. -/
theorem c9_update_languages_witness :
    update_languages_yml
      [(chars "l_english",
        [(chars "l_english:1", chars "English"), (chars "l_french:1", chars "Francais")]),
       (chars "l_french",
        [(chars "l_english:1", chars "Anglais"), (chars "l_french:1", chars "Francais")])]
      (chars "polish") (chars "Polski")
    = [(chars "l_english",
        [(chars "l_english:1", chars "English"), (chars "l_french:1", chars "Francais")]),
       (chars "l_french",
        [(chars "l_english:1", chars "Anglais"), (chars "l_french:1", chars "Francais")])].map
        (fun b => (b.1, b.2 ++ [(chars "l_" ++ chars "polish" ++ chars ":1", chars "Polski")]))
      ++ [(chars "l_" ++ chars "polish",
          [(chars "l_english:1", chars "English"), (chars "l_french:1", chars "Francais")]
            ++ [(chars "l_" ++ chars "polish" ++ chars ":1", chars "Polski")])] :=
  c9_update_languages _ (chars "polish") (chars "Polski")
    [(chars "l_english:1", chars "English"), (chars "l_french:1", chars "Francais")]
    (by decide) (by decide) (by decide)

/-!
## Round-trip (towards C1): the serializer's cooked lines and how the parser
reads them back
-/

/-- The serialized line of a digit-versioned entry after the colon fix. -/
def entryLineOut (k : Key) (v : Value) : List Char :=
  chars "  " ++ k ++ ' ' :: '"' :: (v ++ ['"'])

/-- The serialized lines of a non-empty block after the colon fix. -/
def blockLinesOut (h : Key) (es : Block) : List (List Char) :=
  (h ++ [':']) :: es.map (fun kv => entryLineOut kv.1 kv.2)

theorem goodDoc_props {doc : Document} (hg : goodDoc doc = true) :
    (doc.map Prod.fst).Nodup ∧ ∀ b ∈ doc, goodHeaderKey b.1 = true ∧ b.2 ≠ [] ∧
      (b.2.map Prod.fst).Nodup ∧
      ∀ kv ∈ b.2, goodEntryKey kv.1 = true ∧ goodValue kv.2 = true := by
  unfold goodDoc at hg
  simp only [Bool.and_eq_true, List.all_eq_true, decide_eq_true_eq] at hg
  refine ⟨hg.1, ?_⟩
  intro b hb
  obtain ⟨⟨⟨⟨h1, _⟩, h3⟩, h4⟩, h5⟩ := hg.2 b hb
  refine ⟨h1, by simpa [List.isEmpty_iff] using h3, h4, ?_⟩
  intro kv hkv
  exact ⟨(h5 kv hkv).1.1, (h5 kv hkv).1.2⟩

theorem goodHeaderKey_shape {h : Key} (hg : goodHeaderKey h = true) :
    ∃ rest, h = 'l' :: '_' :: rest ∧ rest ≠ [] ∧ ∀ c ∈ rest, isWordChar c = true := by
  unfold goodHeaderKey at hg
  split at hg
  · rename_i rest
    simp only [Bool.and_eq_true, List.all_eq_true] at hg
    exact ⟨rest, rfl, by simpa [List.isEmpty_iff] using hg.1, hg.2⟩
  · exact absurd hg (by simp)

theorem wordChar_not_nl {c : Char} (h : isWordChar c = true) : c ≠ '\n' := by
  intro hc
  subst hc
  exact absurd h (by decide)

theorem wordChar_not_ws {c : Char} (h : isWordChar c = true) : isPyWs c = false := by
  cases hw : isPyWs c with
  | false => rfl
  | true =>
    exfalso
    unfold isPyWs at hw
    simp only [Bool.or_eq_true, beq_iff_eq] at hw
    rcases hw with ((((hc | hc) | hc) | hc) | hc) | hc <;>
      (subst hc; exact absurd h (by decide))

theorem goodChar_not_nl {c : Char} (h : goodChar c = true) : c ≠ '\n' := by
  intro hc
  subst hc
  exact absurd h (by decide)

theorem dropBOM_id {l : List Char} {c : Char} {cs : List Char}
    (hl : l = c :: cs) (hc : c.toNat ≠ 65279) : dropBOM l = l := by
  subst hl
  unfold dropBOM
  rw [List.dropWhile_cons, if_neg (by simpa using hc)]

/-- `colonFix` leaves a header line `<h>:` unchanged. -/
theorem colonFix_header {h : Key} (hg : goodHeaderKey h = true) :
    colonFix (h ++ [':']) = h ++ [':'] := by
  obtain ⟨rest, hh, hne, hword⟩ := goodHeaderKey_shape hg
  subst hh
  have hl : ('l' :: '_' :: rest) ++ [':'] = 'l' :: ('_' :: (rest ++ ':' :: ([] : List Char))) := by
    simp
  rw [hl]
  unfold colonFix
  have h0 : ('l' :: ('_' :: (rest ++ ':' :: ([] : List Char)))).takeWhile isPyWs = []
      ∧ ('l' :: ('_' :: (rest ++ ':' :: ([] : List Char)))).dropWhile isPyWs
        = 'l' :: ('_' :: (rest ++ ':' :: [])) := by
    constructor
    · rw [List.takeWhile_cons, if_neg (by decide)]
    · rw [List.dropWhile_cons, if_neg (by decide)]
  simp only [h0.1, h0.2]
  have hsp := takeWhile_append_not hword (show isWordChar ':' = false from by decide)
    ([] : List Char)
  simp only [hsp.1, hsp.2]
  rw [if_neg (by simpa using hne)]

theorem headerParse?_header {h : Key} (hg : goodHeaderKey h = true) :
    headerParse? (h ++ [':']) = some h := by
  obtain ⟨rest, hh, hne, hword⟩ := goodHeaderKey_shape hg
  subst hh
  have hl : ('l' :: '_' :: rest) ++ [':'] = 'l' :: ('_' :: (rest ++ ':' :: ([] : List Char))) := by
    simp
  rw [hl]
  unfold headerParse?
  have h0 : ('l' :: ('_' :: (rest ++ ':' :: ([] : List Char)))).dropWhile isPyWs
      = 'l' :: ('_' :: (rest ++ ':' :: [])) := by
    rw [List.dropWhile_cons, if_neg (by decide)]
  simp only [h0]
  have hsp := takeWhile_append_not hword (show isWordChar ':' = false from by decide)
    ([] : List Char)
  simp only [hsp.1, hsp.2]
  rw [if_pos ⟨hne, by simp⟩]

theorem entryParse?_header {h : Key} (hg : goodHeaderKey h = true) :
    entryParse? (h ++ [':']) = none := by
  obtain ⟨rest, hh, hne, hword⟩ := goodHeaderKey_shape hg
  subst hh
  unfold entryParse?
  rw [if_pos (by
    rw [show ('l' :: '_' :: rest) ++ [':'] = 'l' :: ('_' :: rest ++ [':']) from by simp,
      List.takeWhile_cons, if_neg (by decide)])]

theorem headerParse?_entry {k : Key} (hk : goodEntryKey k = true) (v : Value) :
    headerParse? (entryLineOut k v) = none := by
  obtain ⟨run, d, hkeq, hrun, hword, hd⟩ := goodEntryKey_shape hk
  subst hkeq
  have hl : entryLineOut ('l' :: '_' :: run ++ [':', d]) v
      = [' ', ' '] ++ 'l' :: ('_' :: (run ++ ':' :: (d :: ' ' :: '"' :: (v ++ ['"'])))) := by
    simp [entryLineOut, chars]
  rw [hl]
  unfold headerParse?
  have hws2 : ∀ c ∈ ([' ', ' '] : List Char), isPyWs c = true := by decide
  have hsp := takeWhile_append_not hws2 (show isPyWs 'l' = false from by decide)
    ('_' :: (run ++ ':' :: (d :: ' ' :: '"' :: (v ++ ['"']))))
  simp only [hsp.2]
  have hsp2 := takeWhile_append_not hword (show isWordChar ':' = false from by decide)
    (d :: ' ' :: '"' :: (v ++ ['"']))
  simp only [hsp2.1, hsp2.2]
  rw [if_neg ?_]
  intro hcon
  have := hcon.2
  simp only [List.all_cons, Bool.and_eq_true] at this
  rw [(digit_not_special hd).2.1] at this
  exact absurd this.1 (by simp)

theorem entryParse?_entry {k : Key} (hk : goodEntryKey k = true) (v : Value) :
    entryParse? (entryLineOut k v) = some (k, v) := by
  obtain ⟨run, d, hkeq, hrun, hword, hd⟩ := goodEntryKey_shape hk
  subst hkeq
  have hl : entryLineOut ('l' :: '_' :: run ++ [':', d]) v
      = [' ', ' '] ++ 'l' :: ('_' :: (run ++ ':' :: (d :: ' ' :: '"' :: (v ++ ['"'])))) := by
    simp [entryLineOut, chars]
  rw [hl]
  unfold entryParse?
  have hws2 : ∀ c ∈ ([' ', ' '] : List Char), isPyWs c = true := by decide
  have hsp := takeWhile_append_not hws2 (show isPyWs 'l' = false from by decide)
    ('_' :: (run ++ ':' :: (d :: ' ' :: '"' :: (v ++ ['"']))))
  simp only [hsp.1, hsp.2]
  rw [if_neg (by simp)]
  have hsp2 := takeWhile_append_not hword (show isWordChar ':' = false from by decide)
    (d :: ' ' :: '"' :: (v ++ ['"']))
  simp only [hsp2.1, hsp2.2]
  rw [if_neg (by simpa using hrun)]
  have hdig : digitSplit (d :: ' ' :: '"' :: (v ++ ['"']))
      = ([d], ' ' :: '"' :: (v ++ ['"'])) := by
    simp [digitSplit, hd]
  simp only [hdig]
  have htw : (' ' :: '"' :: (v ++ ['"'])).takeWhile isPyWs = [' ']
      ∧ (' ' :: '"' :: (v ++ ['"'])).dropWhile isPyWs = '"' :: (v ++ ['"']) := by
    constructor
    · rw [List.takeWhile_cons, if_pos (by decide), List.takeWhile_cons, if_neg (by decide)]
    · rw [List.dropWhile_cons, if_pos (by decide), List.dropWhile_cons, if_neg (by decide)]
  simp only [htw.1, htw.2]
  rw [if_neg (by simp)]
  rw [pyRstrip_last_not_ws (show isPyWs '"' = false from by decide) v]
  rw [List.getLast?_concat]
  rw [if_pos rfl]
  rw [List.dropLast_concat]

/-- On a good document the serializer's lines are exactly the cooked lines:
headers `<h>:` and entries `  <key> "<value>"`. -/
theorem serializeLines_good {doc : Document} (hg : goodDoc doc = true)
    (hne : doc ≠ []) :
    serializeLines doc = (doc.map (fun b => blockLinesOut b.1 b.2)).flatten := by
  obtain ⟨hnd, hb⟩ := goodDoc_props hg
  unfold serializeLines yamlLines
  rw [if_neg hne, List.map_flatten, List.map_map]
  congr 1
  refine List.map_congr_left ?_
  intro b hbm
  obtain ⟨hh, hesne, hesnd, hkv⟩ := hb b hbm
  show List.map colonFix (yamlBlockLines b.1 b.2) = blockLinesOut b.1 b.2
  unfold yamlBlockLines blockLinesOut
  rw [if_neg hesne, List.map_cons, colonFix_header hh, List.map_map]
  congr 1
  refine List.map_congr_left ?_
  intro kv hkvm
  show colonFix (chars "  " ++ emitKey kv.1 ++ ':' :: ' ' :: '"' :: escapeDQ kv.2 ++ ['"'])
      = entryLineOut kv.1 kv.2
  rw [emitKey_good (hkv kv hkvm).1, escapeDQ_id (hkv kv hkvm).2,
    show chars "  " ++ kv.1 ++ ':' :: ' ' :: '"' :: kv.2 ++ ['"']
      = chars "  " ++ kv.1 ++ ':' :: ' ' :: '"' :: (kv.2 ++ ['"']) from by simp]
  exact colonFix_entry (hkv kv hkvm).1 (kv.2 ++ ['"'])

theorem headerLine_no_nl {h : Key} (hg : goodHeaderKey h = true) :
    '\n' ∉ h ++ [':'] := by
  obtain ⟨rest, hh, _, hword⟩ := goodHeaderKey_shape hg
  subst hh
  intro hc
  rcases List.mem_append.1 hc with hc | hc
  · rcases List.mem_cons.1 hc with hc | hc
    · simp at hc
    · rcases List.mem_cons.1 hc with hc | hc
      · simp at hc
      · exact wordChar_not_nl (hword _ hc) rfl
  · simp at hc

theorem entryLine_no_nl {k : Key} {v : Value} (hk : goodEntryKey k = true)
    (hv : goodValue v = true) : '\n' ∉ entryLineOut k v := by
  obtain ⟨run, d, hkeq, _, hword, hd⟩ := goodEntryKey_shape hk
  subst hkeq
  intro hc
  unfold entryLineOut at hc
  rcases List.mem_append.1 hc with hc | hc
  · rcases List.mem_append.1 hc with hc | hc
    · simp [chars] at hc
    · rcases List.mem_cons.1 hc with hc | hc
      · simp at hc
      · rcases List.mem_cons.1 hc with hc | hc
        · simp at hc
        · rcases List.mem_append.1 hc with hc | hc
          · exact wordChar_not_nl (hword _ hc) rfl
          · rcases List.mem_cons.1 hc with hc | hc
            · simp at hc
            · have : '\n' = d := by simpa using hc
              subst this
              have := (digit_not_special hd).2.1
              simp [isPyWs] at this
  · rcases List.mem_cons.1 hc with hc | hc
    · simp at hc
    · rcases List.mem_cons.1 hc with hc | hc
      · simp at hc
      · rcases List.mem_append.1 hc with hc | hc
        · unfold goodValue at hv
          rw [List.all_eq_true] at hv
          exact goodChar_not_nl (hv _ hc) rfl
        · simp at hc

theorem flAux_append_line :
    ∀ (l : List Char), '\n' ∉ l → ∀ (acc rest : List Char),
      flAux (l ++ '\n' :: rest) acc = (acc.reverse ++ l) :: flAux rest [] := by
  intro l
  induction l with
  | nil => intro _ acc rest; simp [flAux]
  | cons c cs ih =>
    intro hnl acc rest
    have hc : c ≠ '\n' := fun h => hnl (h ▸ List.mem_cons_self _ _)
    rw [List.cons_append, flAux.eq_3 acc c (cs ++ '\n' :: rest) (fun h => hc h),
      ih (fun h => hnl (List.mem_cons_of_mem _ h)) (c :: acc) rest]
    simp

theorem fileLines_joined :
    ∀ (ls : List (List Char)), (∀ l ∈ ls, '\n' ∉ l) →
      fileLines ((ls.map (fun l => l ++ ['\n'])).flatten) = ls := by
  intro ls
  induction ls with
  | nil => intro _; rfl
  | cons l ls2 ih =>
    intro hnl
    unfold fileLines
    rw [List.map_cons, List.flatten_cons,
      show (l ++ ['\n']) ++ (ls2.map (fun l => l ++ ['\n'])).flatten
        = l ++ '\n' :: (ls2.map (fun l => l ++ ['\n'])).flatten from by simp,
      flAux_append_line l (hnl l (List.mem_cons_self _ _)) []]
    rw [show flAux ((ls2.map (fun l => l ++ ['\n'])).flatten) []
        = fileLines ((ls2.map (fun l => l ++ ['\n'])).flatten) from rfl,
      ih (fun x hx => hnl x (List.mem_cons_of_mem _ hx))]
    simp

theorem addEntry_append {h : Key} {k : Key} {v : Value} :
    ∀ (acc : Document) (es : Block), h ∉ acc.map Prod.fst →
      addEntry h k v (acc ++ [(h, es)]) = acc ++ [(h, updAssoc k v es)] := by
  intro acc
  induction acc with
  | nil =>
    intro es _
    simp [addEntry]
  | cons b acc2 ih =>
    intro es hna
    rcases b with ⟨h2, es2⟩
    have hne : h2 ≠ h := by
      intro hc
      exact hna (by simp [hc])
    rw [List.cons_append]
    simp only [addEntry, if_neg hne]
    rw [ih es (fun hc => hna (List.mem_cons_of_mem _ hc))]
    simp

theorem headerLine_strip_ne {h : Key} (hg : goodHeaderKey h = true) :
    pyStrip (h ++ [':']) ≠ [] := by
  obtain ⟨rest, hh, _, _⟩ := goodHeaderKey_shape hg
  subst hh
  refine pyStrip_ne_nil_of_dropWhile ?_
  rw [show ('l' :: '_' :: rest) ++ [':'] = 'l' :: ('_' :: rest ++ [':']) from by simp,
    List.dropWhile_cons, if_neg (by decide)]
  simp

theorem entryLine_strip_ne {k : Key} (hk : goodEntryKey k = true) (v : Value) :
    pyStrip (entryLineOut k v) ≠ [] := by
  obtain ⟨run, d, hkeq, hrun, hword, hd⟩ := goodEntryKey_shape hk
  subst hkeq
  refine pyStrip_ne_nil_of_dropWhile ?_
  have hl : entryLineOut ('l' :: '_' :: run ++ [':', d]) v
      = [' ', ' '] ++ 'l' :: ('_' :: (run ++ ':' :: (d :: ' ' :: '"' :: (v ++ ['"'])))) := by
    simp [entryLineOut, chars]
  rw [hl]
  have hws2 : ∀ c ∈ ([' ', ' '] : List Char), isPyWs c = true := by decide
  rw [(takeWhile_append_not hws2 (show isPyWs 'l' = false from by decide) _).2]
  simp

theorem headerLine_head {h : Key} (hg : goodHeaderKey h = true) :
    ∃ cs, h ++ [':'] = 'l' :: cs := by
  obtain ⟨rest, hh, _, _⟩ := goodHeaderKey_shape hg
  subst hh
  exact ⟨'_' :: rest ++ [':'], by simp⟩

theorem entryLine_head (k : Key) (v : Value) :
    ∃ cs, entryLineOut k v = ' ' :: cs := by
  exact ⟨' ' :: (k ++ ' ' :: '"' :: (v ++ ['"'])), by simp [entryLineOut, chars]⟩

/-- Parsing the serialized entry lines of a block accumulates its entries in
order onto the open block. -/
theorem parseLines_entries :
    ∀ (es2 es1 : Block) (acc : Document) (h : Key) (rest : List (List Char)),
      (∀ kv ∈ es2, goodEntryKey kv.1 = true) →
      (∀ kv ∈ es2, kv.1 ∉ es1.map Prod.fst) →
      (es2.map Prod.fst).Nodup →
      h ∉ acc.map Prod.fst →
      parseLines ((es2.map (fun kv => entryLineOut kv.1 kv.2)) ++ rest) (some h)
          (acc ++ [(h, es1)])
        = parseLines rest (some h) (acc ++ [(h, es1 ++ es2)]) := by
  intro es2
  induction es2 with
  | nil =>
    intro es1 acc h rest _ _ _ _
    simp
  | cons kv es3 ih =>
    intro es1 acc h rest hgood hfresh hnd hacc
    rcases kv with ⟨k, v⟩
    have hk : goodEntryKey k = true := (hgood (k, v) (List.mem_cons_self _ _))
    rw [List.map_cons, List.cons_append]
    obtain ⟨cs, hhead⟩ := entryLine_head k v
    have e1 : parseLines (entryLineOut k v :: (es3.map (fun kv => entryLineOut kv.1 kv.2) ++ rest))
        (some h) (acc ++ [(h, es1)])
        = parseLines (es3.map (fun kv => entryLineOut kv.1 kv.2) ++ rest) (some h)
          (addEntry h k v (acc ++ [(h, es1)])) := by
      simp only [parseLines, dropBOM_id hhead (by decide),
        if_neg (entryLine_strip_ne hk v), headerParse?_entry hk v,
        entryParse?_entry hk v]
    rw [e1, addEntry_append acc es1 hacc,
      updAssoc_fresh k v es1 (by
        intro p hp hc
        have hm : p.1 ∈ es1.map Prod.fst := List.mem_map_of_mem Prod.fst hp
        rw [hc] at hm
        exact hfresh (k, v) (List.mem_cons_self _ _) hm),
      ih (es1 ++ [(k, v)]) acc h rest
        (fun x hx => hgood x (List.mem_cons_of_mem _ hx))
        (by
          intro x hx hc
          rw [List.map_append] at hc
          rcases List.mem_append.1 hc with hc | hc
          · exact hfresh x (List.mem_cons_of_mem _ hx) hc
          · have hxk : x.1 = k := by simpa using hc
            rw [List.map_cons] at hnd
            have hm : x.1 ∈ es3.map Prod.fst := List.mem_map_of_mem Prod.fst hx
            rw [hxk] at hm
            exact (List.nodup_cons.1 hnd).1 hm)
        (by
          rw [List.map_cons] at hnd
          exact (List.nodup_cons.1 hnd).2) hacc]
    simp

/-- Parsing the serialized lines of a list of good blocks appends those
blocks to the accumulator. -/
theorem parseLines_doc :
    ∀ (blocks : Document) (acc : Document) (cur : Option Key),
      (∀ b ∈ blocks, goodHeaderKey b.1 = true ∧
        (∀ kv ∈ b.2, goodEntryKey kv.1 = true) ∧ (b.2.map Prod.fst).Nodup) →
      (blocks.map Prod.fst).Nodup →
      (∀ b ∈ blocks, b.1 ∉ acc.map Prod.fst) →
      parseLines ((blocks.map (fun b => blockLinesOut b.1 b.2)).flatten) cur acc
        = acc ++ blocks := by
  intro blocks
  induction blocks with
  | nil =>
    intro acc cur _ _ _
    simp [parseLines]
  | cons b blocks2 ih =>
    intro acc cur hgood hnd hacc
    rcases b with ⟨h, es⟩
    obtain ⟨hh, hkv, hesnd⟩ := hgood (h, es) (List.mem_cons_self _ _)
    simp only [List.map_cons, List.flatten_cons]
    rw [show blockLinesOut h es
        = (h ++ [':']) :: es.map (fun kv => entryLineOut kv.1 kv.2) from rfl,
      List.cons_append]
    obtain ⟨cs, hhead⟩ := headerLine_head hh
    have e1 : parseLines ((h ++ [':']) ::
          (es.map (fun kv => entryLineOut kv.1 kv.2)
            ++ (blocks2.map (fun b => blockLinesOut b.1 b.2)).flatten)) cur acc
        = parseLines (es.map (fun kv => entryLineOut kv.1 kv.2)
            ++ (blocks2.map (fun b => blockLinesOut b.1 b.2)).flatten) (some h)
          (updAssoc h [] acc) := by
      simp only [parseLines, dropBOM_id hhead (by decide),
        if_neg (headerLine_strip_ne hh), headerParse?_header hh]
    rw [e1, updAssoc_fresh h [] acc (by
        intro p hp hc
        have hm : p.1 ∈ acc.map Prod.fst := List.mem_map_of_mem Prod.fst hp
        rw [hc] at hm
        exact hacc (h, es) (List.mem_cons_self _ _) hm),
      parseLines_entries es [] acc h _ hkv (by simp) hesnd (by
        intro hc
        exact hacc (h, es) (List.mem_cons_self _ _) hc)]
    simp only [List.nil_append]
    rw [ih (acc ++ [(h, es)]) (some h)
      (fun x hx => hgood x (List.mem_cons_of_mem _ hx))
      (by
        rw [List.map_cons] at hnd
        exact (List.nodup_cons.1 hnd).2)
      (by
        intro x hx hc
        rw [List.map_append] at hc
        rcases List.mem_append.1 hc with hc | hc
        · exact hacc x (List.mem_cons_of_mem _ hx) hc
        · have hxh : x.1 = h := by simpa using hc
          rw [List.map_cons] at hnd
          have hm : x.1 ∈ blocks2.map Prod.fst := List.mem_map_of_mem Prod.fst hx
          rw [hxh] at hm
          exact (List.nodup_cons.1 hnd).1 hm)]
    simp

/-!
## Claim C1 — round-trip
-/

/-- Counterexample to C1 as stated: the valid dialect text `"l_english:\n"`
parses to a Document with one empty Block; serializing that Document emits
`l_english: {}` (PyYAML renders an empty mapping in flow style), which the
parser does not recognize, so the round-trip loses the block. -/
theorem c1_roundtrip_counterexample :
    parse_paradox_yaml (chars "l_english:\n") = [(chars "l_english", [])] ∧
    parse_paradox_yaml (serializeDoc [(chars "l_english", [])])
      ≠ [(chars "l_english", [])] := by decide

/-- Claim C1 (amended): `parse(serialize(doc)) = doc` for every Document in
the serializer's well-behaved range: non-empty Blocks with distinct
parser-shaped headers, distinct digit-versioned Entry Keys, and values made
of characters the emitter writes verbatim, short enough not to fold
(`goodDoc`).  It fails for Documents with an empty Block (see the
counterexample) and for digitless keys (see the C6 counterexample). -/
theorem c1_roundtrip (doc : Document) (hg : goodDoc doc = true) :
    parse_paradox_yaml (serializeDoc doc) = doc := by
  by_cases hne : doc = []
  · subst hne; decide
  · unfold parse_paradox_yaml serializeDoc
    rw [serializeLines_good hg hne]
    rw [fileLines_joined _ ?hnl]
    case hnl =>
      intro l hl
      rw [List.mem_flatten] at hl
      obtain ⟨lines, hlines, hlmem⟩ := hl
      obtain ⟨b, hb, rfl⟩ := List.mem_map.1 hlines
      obtain ⟨hh, _, _, hkv⟩ := (goodDoc_props hg).2 b hb
      unfold blockLinesOut at hlmem
      rcases List.mem_cons.1 hlmem with h | h
      · subst h; exact headerLine_no_nl hh
      · obtain ⟨kv, hkvm, rfl⟩ := List.mem_map.1 h
        exact entryLine_no_nl (hkv kv hkvm).1 (hkv kv hkvm).2
    rw [parseLines_doc doc [] none ?_ ?_ (by simp)]
    · simp
    · intro b hb
      obtain ⟨hh, _, hnd2, hkv⟩ := (goodDoc_props hg).2 b hb
      exact ⟨hh, fun kv hkvm => (hkv kv hkvm).1, hnd2⟩
    · exact (goodDoc_props hg).1

/-- Witness for the amended C1 on a concrete registry document. -/
theorem c1_roundtrip_witness :
    parse_paradox_yaml (serializeDoc
        [(chars "l_english",
          [(chars "l_english:1", chars "English"), (chars "l_french:1", chars "Francais")]),
         (chars "l_french", [(chars "l_english:1", chars "Anglais")])])
      = [(chars "l_english",
          [(chars "l_english:1", chars "English"), (chars "l_french:1", chars "Francais")]),
         (chars "l_french", [(chars "l_english:1", chars "Anglais")])] :=
  c1_roundtrip _ (by decide)

end V3
